import Mathlib

/-!
Verification of the ClawFounder dashboard backend (`dashboard/server.js`).

The JavaScript source is shallowly embedded below.  Strings are modelled as
lists of characters (`Str`), the `.env` secrets file ("Config Store") as an
optional file content, the accounts registry as an association list from
connector names to lists of accounts, and the filesystem as a list of
existing paths.  Each definition mirrors one JavaScript function or route
handler of the backend; the theorems at the end settle the specification
claims about them.
-/

namespace ClawFounder

/-- Characters of a JavaScript string. -/
abbrev Str := List Char

/-- JavaScript `String.prototype.trim` removes whitespace; per-character test. -/
def isWs (c : Char) : Bool := c.isWhitespace

/-- Left part of JS `trim`: drop leading whitespace. -/
def trimL (s : Str) : Str := s.dropWhile isWs

/-- Right part of JS `trim`: drop trailing whitespace. -/
def trimR (s : Str) : Str := (s.reverse.dropWhile isWs).reverse

/-- JS `s.trim()`. -/
def trim (s : Str) : Str := trimR (trimL s)

/-- JS `s.startsWith(p)` for a single-character pattern. -/
def strStarts (s : Str) (c : Char) : Bool :=
  match s with
  | [] => false
  | d :: _ => d = c

/-- JS `s.indexOf('=')` combined with the two `slice` calls of the backend:
returns the part before the first `'='` and the part after it, or `none`
when no `'='` occurs (`indexOf === -1`). -/
def splitFirstEq : Str → Option (Str × Str)
  | [] => none
  | c :: cs =>
    if c = '=' then some ([], cs)
    else (splitFirstEq cs).map (fun p => (c :: p.1, p.2))

/-- JS `value.indexOf(' #')` combined with `slice(0, hashIdx)`: the part of
the string before the first occurrence of the two-character sequence
`" #"`, or `none` when the sequence does not occur. -/
def cutSeq : Str → Option Str
  | [] => none
  | c :: cs =>
    if c = ' ' ∧ strStarts cs '#' then some []
    else (cutSeq cs).map (c :: ·)

/-- JS `content.split('\n')`. -/
def splitOnNl : Str → List Str
  | [] => [[]]
  | c :: cs =>
    if c = '\n' then [] :: splitOnNl cs
    else
      match splitOnNl cs with
      | [] => [[c]]
      | l :: ls => (c :: l) :: ls

/-- JS `lines.join('\n')`. -/
def joinNl : List Str → Str
  | [] => []
  | [l] => l
  | l :: l2 :: ls => l ++ '\n' :: joinNl (l2 :: ls)

/-- Shared line parse of `readEnv` and `writeEnv`: trims the line, skips
blank lines, comment lines and lines without `'='`, and yields the trimmed
key together with the raw text after the first `'='`. -/
def lineKV (line : Str) : Option (Str × Str) :=
  let t := trim line
  if t = [] then none
  else if strStarts t '#' then none
  else
    match splitFirstEq t with
    | none => none
    | some (k, v) => some (trim k, v)

/-- The key `writeEnv` parses from an existing line (it ignores the value). -/
def lineKey (line : Str) : Option Str := (lineKV line).map Prod.fst

/-- `readEnv`'s inline-comment handling: values starting with a quote are
kept verbatim; otherwise the text from the first `" #"` on is stripped and a
value that itself starts with `'#'` resolves to the empty string. -/
def resolveValue (v : Str) : Str :=
  if strStarts v '"' ∨ strStarts v '\'' then v
  else
    let v1 := match cutSeq v with
              | some before => trim before
              | none => v
    if strStarts v1 '#' then [] else v1

/-- The assignment `env[key] = value` a single line performs in `readEnv`,
restricted to a queried key: `some value` when the line parses and its
resolved value is non-empty (JS `if (value) env[key] = value`). -/
def assignTo (line : Str) (k : Str) : Option Str :=
  match lineKV line with
  | none => none
  | some (k', vraw) =>
    let v := resolveValue (trim vraw)
    if v = [] then none
    else if k' = k then some v else none

/-- Folding `readEnv`'s loop over the lines: a later line overwrites an
earlier assignment to the same key. -/
def readLines : List Str → Str → Option Str
  | [], _ => none
  | l :: ls, k =>
    match readLines ls k with
    | some v => some v
    | none => assignTo l k

/-- `readEnv()` of the backend, as a lookup: the value the returned `env`
object holds at key `k` (absent keys and keys whose resolved value is empty
read as `none`). -/
def readEnv (content : Str) (k : Str) : Option Str :=
  readLines (splitOnNl content) k

/-- `readEnv` on the file state: a missing `.env` is an empty mapping. -/
def readEnvFile (file : Option Str) (k : Str) : Option Str :=
  match file with
  | none => none
  | some content => readEnv content k

/-- The `updates` object passed to `writeEnv`, as an association list in
property order; JS object keys are unique. -/
abbrev EnvUpd := List (Str × Str)

/-- JS `key in envObj` / `envObj[key]`. -/
def updLookup (u : EnvUpd) (k : Str) : Option Str :=
  match u with
  | [] => none
  | (k', v) :: rest => if k' = k then some v else updLookup rest k

/-- One step of `writeEnv`'s `lines.map(...)`: a line whose parsed key is in
the updates is replaced by `` `${key}=${value}` ``; other lines are kept. -/
def replaceLine (u : EnvUpd) (line : Str) : Str :=
  match lineKey line with
  | none => line
  | some k =>
    match updLookup u k with
    | none => line
    | some v => k ++ '=' :: v

/-- Whether some existing line parses to key `k`; for keys of the update
object this is exactly JS `updatedKeys.has(key)` after the map. -/
def keyPresent (lines : List Str) (k : Str) : Bool :=
  lines.any (fun l => lineKey l = some k)

/-- The existing lines `writeEnv` starts from: a missing file contributes
none. -/
def fileLines (file : Option Str) : List Str :=
  match file with
  | none => []
  | some content => splitOnNl content

/-- The `key=value` lines `writeEnv` appends: keys of the update object not
found among the existing lines (`!updatedKeys.has(key)`) whose value is
truthy (non-empty), in property order. -/
def writeAppends (lines : List Str) (u : EnvUpd) : List Str :=
  (u.filter (fun kv => ¬ keyPresent lines kv.1 ∧ kv.2 ≠ [])).map
    (fun kv => kv.1 ++ '=' :: kv.2)

/-- The full line list `writeEnv` writes. -/
def writeLines (file : Option Str) (u : EnvUpd) : List Str :=
  (fileLines file).map (replaceLine u) ++ writeAppends (fileLines file) u

/-- `writeEnv(envObj)` of the backend: replaces matching lines in place,
appends `key=value` for keys not found whose value is truthy (non-empty),
and writes the joined result. -/
def writeEnv (file : Option Str) (u : EnvUpd) : Str :=
  joinNl (writeLines file u)

example : readEnv "A=1\nB=2".toList "B".toList = some "2".toList := by decide
example : readEnv "A=1\n# B=2".toList "B".toList = none := by decide
example : readEnv "A=x #c".toList "A".toList = some "x".toList := by decide
example : readEnv "A=#c".toList "A".toList = none := by decide
example : readEnv "A=\"x #c\"".toList "A".toList = some "\"x #c\"".toList := by decide
example : readEnv "A=1\nA=".toList "A".toList = some "1".toList := by decide
example :
    writeEnv (some "A=1\nB=2".toList) [("B".toList, "3".toList), ("C".toList, "4".toList)]
      = "A=1\nB=3\nC=4".toList := by decide
example : writeEnv none [("K".toList, "".toList)] = [] := by decide

/-! ## Accounts registry, filesystem and server state -/

/-- One entry of `accounts.json`.  JavaScript account objects carry the
three credential-locator properties optionally; an absent property is
`none`. -/
structure Account where
  id : Str
  label : Str
  enabled : Bool
  credential_file : Option Str
  env_keyF : Option Str
  env_keysF : Option (List (Str × Str))
deriving DecidableEq, Repr

/-- The `accounts` map of the registry document: connector name to account
list, in property order. -/
abbrev Registry := List (Str × List Account)

/-- JS `registry.accounts[connector]` (first property wins; JS keys unique). -/
def regLookup (r : Registry) (c : Str) : Option (List Account) :=
  match r with
  | [] => none
  | (c', l) :: rest => if c' = c then some l else regLookup rest c

/-- JS `registry.accounts[connector] = accts` (replace or create the
property). -/
def regSet (r : Registry) (c : Str) (accts : List Account) : Registry :=
  match r with
  | [] => [(c, accts)]
  | (c', l) :: rest => if c' = c then (c, accts) :: rest else (c', l) :: regSet rest c accts

/-- Server state touched by the account endpoints: the registry document,
the set of existing files (as paths) and the `.env` file content. -/
structure St where
  registry : Registry
  files : List Str
  envFile : Option Str
deriving DecidableEq, Repr

/-- `fs.unlinkSync` guarded by `fs.existsSync`: afterwards the path does not
exist. -/
def deleteFile (fs : List Str) (p : Str) : List Str :=
  fs.filter (fun q => ¬ q = p)

/-- `fs.writeFileSync` creating a file: the path exists afterwards. -/
def insertFile (fs : List Str) (p : Str) : List Str :=
  if p ∈ fs then fs else p :: fs

/-- `accountId === 'default'`. -/
def defaultId : Str := "default".toList

def gmailName : Str := "gmail".toList
def workEmailName : Str := "work_email".toList
def firebaseName : Str := "firebase".toList

/-- `CLAWFOUNDER_DIR` (`~/.clawfounder`). -/
def clawDir : Str := "~/.clawfounder".toList

/-- `path.join(CLAWFOUNDER_DIR, name)`. -/
def credPath (name : Str) : Str := clawDir ++ '/' :: name

/-- `GMAIL_PERSONAL_TOKEN`. -/
def gmailPersonalPath : Str := credPath "gmail_personal.json".toList

/-- `GMAIL_WORK_TOKEN`. -/
def gmailWorkPath : Str := credPath "gmail_work.json".toList

/-- `getAccountCredentialFile(connectorName, accountId)`. -/
def getAccountCredentialFile (connectorName accountId : Str) : Str :=
  if accountId = defaultId ∨ accountId = [] then
    if connectorName = gmailName then gmailPersonalPath else gmailWorkPath
  else
    credPath (connectorName ++ "_account_".toList ++ accountId ++ ".json".toList)

/-- JS truthiness of an optional string property (`undefined` and `''` are
falsy). -/
def truthy (o : Option Str) : Option Str :=
  match o with
  | none => none
  | some s => if s = [] then none else some s

/-- `findIndex` followed by reading the element and `splice(idx, 1)`:
the first element satisfying the predicate together with the list with that
element removed. -/
def extractFirst (p : α → Bool) : List α → Option (α × List α)
  | [] => none
  | x :: xs =>
    if p x then some (x, xs)
    else (extractFirst p xs).map (fun q => (q.1, x :: q.2))

/-- Responses of `POST /api/accounts/:connector/:id/remove`. -/
inductive RemoveResp
  | removed
  | errDefault
  | errNotFound
deriving DecidableEq, Repr

/-- `POST /api/accounts/:connector/:id/remove`: rejects the default id,
404s when the account is absent, otherwise deletes the credential file
(if the `credential_file` property is truthy), clears the derived env keys
(`env_key` first, else `env_keys`), removes the entry and saves. -/
def removeAccount (st : St) (connector id : Str) : St × RemoveResp :=
  if id = defaultId then (st, .errDefault)
  else
    let accts := (regLookup st.registry connector).getD []
    match extractFirst (fun a => a.id = id) accts with
    | none => (st, .errNotFound)
    | some (acct, rest) =>
      let fs1 := match truthy acct.credential_file with
                 | some f => deleteFile st.files (credPath f)
                 | none => st.files
      let env1 := match truthy acct.env_keyF with
                  | some k => some (writeEnv st.envFile [(k, [])])
                  | none =>
                    match acct.env_keysF with
                    | some m => some (writeEnv st.envFile (m.map (fun kv => (kv.2, ([] : Str)))))
                    | none => st.envFile
      (⟨regSet st.registry connector rest, fs1, env1⟩, .removed)

/-- Responses of `POST /api/accounts/:connector/:id/disconnect`. -/
inductive DiscResp
  | ok
  | errNotFound
deriving DecidableEq, Repr

/-- `POST /api/accounts/:connector/:id/disconnect`: clears the credentials
of one account but never writes the registry document. -/
def disconnectAccount (st : St) (connector id : Str) : St × DiscResp :=
  let accts := (regLookup st.registry connector).getD []
  match accts.find? (fun a => a.id = id) with
  | none => (st, .errNotFound)
  | some acct =>
    match truthy acct.credential_file with
    | some f => (⟨st.registry, deleteFile st.files (credPath f), st.envFile⟩, .ok)
    | none =>
      if connector = gmailName ∨ connector = workEmailName then
        (⟨st.registry, deleteFile st.files (getAccountCredentialFile connector id), st.envFile⟩, .ok)
      else
        match truthy acct.env_keyF with
        | some k => (⟨st.registry, st.files, some (writeEnv st.envFile [(k, [])])⟩, .ok)
        | none =>
          match acct.env_keysF with
          | some m =>
            (⟨st.registry, st.files,
               some (writeEnv st.envFile (m.map (fun kv => (kv.2, ([] : Str)))))⟩, .ok)
          | none => (st, .ok)

/-- `^[a-z0-9_-]+$`. -/
def idValid (id : Str) : Bool :=
  id ≠ [] ∧ id.all (fun c => c.isLower ∨ c.isDigit ∨ c = '_' ∨ c = '-')

/-- `id.toUpperCase()` with every hyphen replaced by an underscore. -/
def upperUnd (id : Str) : Str :=
  id.map (fun c => if c = '-' then '_' else c.toUpper)

/-- One discovered connector: its name and the credential fields parsed
from its `instructions.md` table (`discoverConnectors`). -/
structure ConnDef where
  name : Str
  envVars : List (Str × Bool)
deriving DecidableEq, Repr

/-- Responses of `POST /api/accounts/:connector/add`. -/
inductive AddResp
  | okAdd (a : Account)
  | errBadRequest
  | errConflict
deriving DecidableEq, Repr

/-- The derived Config Store key of one declared field for a named
account: `` `${v.key}_${id.toUpperCase().replace(...)}` ``. -/
def derivedKey (fieldKey id : Str) : Str := fieldKey ++ '_' :: upperUnd id

/-- The registry entry `POST /api/accounts/:connector/add` builds:
`credential_file` for the e-mail connectors, a derived `env_key` when the
catalog declares exactly one field, derived `env_keys` when it declares
several, and no locator at all otherwise. -/
def addAccountEntry (catalog : List ConnDef) (connector id label : Str) : Account :=
  let base : Account := ⟨id, label, true, none, none, none⟩
  if connector = gmailName ∨ connector = workEmailName then
    { base with
        credential_file := some (connector ++ "_account_".toList ++ id ++ ".json".toList) }
  else
    match catalog.find? (fun c => c.name = connector) with
    | none => base
    | some connDef =>
      match connDef.envVars with
      | [v] => { base with env_keyF := some (derivedKey v.1 id) }
      | v :: vs =>
        { base with
            env_keysF := some ((v :: vs).map (fun w => (w.1, derivedKey w.1 id))) }
      | [] => base

/-- The Config Store state after the `add` handler wrote any provided
`envValues` under the derived keys. -/
def addAccountEnv (catalog : List ConnDef) (envFile : Option Str)
    (connector id : Str) (envValues : EnvUpd) : Option Str :=
  if connector = gmailName ∨ connector = workEmailName then envFile
  else
    match catalog.find? (fun c => c.name = connector) with
    | none => envFile
    | some connDef =>
      match connDef.envVars with
      | [v] =>
        match updLookup envValues v.1 with
        | some value =>
          if value = [] then envFile
          else some (writeEnv envFile [(derivedKey v.1 id, value)])
        | none => envFile
      | v :: vs =>
        let envUpdates := (v :: vs).filterMap (fun w =>
          match updLookup envValues w.1 with
          | some value => if value = [] then none
                          else some (derivedKey w.1 id, value)
          | none => none)
        if envUpdates = [] then envFile
        else some (writeEnv envFile envUpdates)
      | [] => envFile

/-- `POST /api/accounts/:connector/add`: validates the id, rejects
duplicates, then appends the built entry and writes provided credential
values to the Config Store. -/
def addAccount (catalog : List ConnDef) (st : St) (connector id label : Str)
    (envValues : EnvUpd) : St × AddResp :=
  if id = [] ∨ label = [] then (st, .errBadRequest)
  else if ¬ idValid id then (st, .errBadRequest)
  else
    let accts := (regLookup st.registry connector).getD []
    if accts.any (fun a => a.id = id) then (st, .errConflict)
    else
      let entry := addAccountEntry catalog connector id label
      (⟨regSet st.registry connector (accts ++ [entry]), st.files,
         addAccountEnv catalog st.envFile connector id envValues⟩, .okAdd entry)

/-- The registry entry the `gmail` login close handler creates on a first
successful login (exit code 0, last JSON line parsed). -/
def gmailLoginNewAccount (accountId : Str) (email : Option Str) : Account :=
  { id := accountId
    label := match email with
             | some e => e
             | none => if accountId = defaultId then "Personal Gmail".toList else accountId
    enabled := true
    credential_file := some (if accountId = defaultId then "gmail_personal.json".toList
                             else "gmail_account_".toList ++ accountId ++ ".json".toList)
    env_keyF := none
    env_keysF := none }

/-- The registry entry the `work_email` login close handler creates when
the account id is not yet in the registry. -/
def workEmailNewAccount (accountId : Str) : Account :=
  { id := accountId
    label := if accountId = defaultId then "Work Email".toList else accountId
    enabled := true
    credential_file := some (if accountId = defaultId then "gmail_work.json".toList
                             else "work_email_account_".toList ++ accountId ++ ".json".toList)
    env_keyF := none
    env_keysF := none }

/-- One conditional block of `ensureAccountsRegistry`: when the condition
on the legacy credentials holds, record the synthesized account list. -/
def seedStep (cond : Bool) (c : Str) (l : List Account) (r : Registry) : Registry :=
  if cond then regSet r c l else r

/-- `ensureAccountsRegistry`: the registry synthesized at startup from the
legacy credential files and known Config Store keys.  `gmailTok`/`workTok`
say whether the two legacy token files exist; the e-mail labels come from
their `_email` fields when parseable; `env` is the Config Store snapshot. -/
def seedRegistry (gmailTok workTok : Bool) (gmailEmail workEmail : Option Str)
    (env : Str → Option Str) : Registry :=
  seedStep ((env "SUPABASE_URL".toList).isSome ∧ (env "SUPABASE_SERVICE_KEY".toList).isSome)
    "supabase".toList
    [⟨defaultId, "default".toList, true, none, none,
      some [("SUPABASE_URL".toList, "SUPABASE_URL".toList),
            ("SUPABASE_SERVICE_KEY".toList, "SUPABASE_SERVICE_KEY".toList)]⟩] <|
  seedStep ((env "TELEGRAM_BOT_TOKEN".toList).isSome ∧ (env "TELEGRAM_CHAT_ID".toList).isSome)
    "telegram".toList
    [⟨defaultId, "default bot".toList, true, none, none,
      some [("TELEGRAM_BOT_TOKEN".toList, "TELEGRAM_BOT_TOKEN".toList),
            ("TELEGRAM_CHAT_ID".toList, "TELEGRAM_CHAT_ID".toList)]⟩] <|
  seedStep (env "GITHUB_TOKEN".toList).isSome
    "github".toList
    [⟨defaultId, "personal".toList, true, none, some "GITHUB_TOKEN".toList, none⟩] <|
  seedStep workTok workEmailName
    [⟨defaultId, workEmail.getD "Work Email".toList, true,
      some "gmail_work.json".toList, none, none⟩] <|
  seedStep gmailTok gmailName
    [⟨defaultId, gmailEmail.getD "Personal Gmail".toList, true,
      some "gmail_personal.json".toList, none, none⟩] []

/-- Number of credential-locator properties an account carries. -/
def locCount (a : Account) : Nat :=
  (if a.credential_file.isSome then 1 else 0) +
  (if a.env_keyF.isSome then 1 else 0) +
  (if a.env_keysF.isSome then 1 else 0)

/-! ## Login session manager -/

/-- The `emailLoginProcesses` table: `"connector:accountId"` keys mapped to
the spawned process (identified here by its pid). -/
abbrev SessTable := List (Str × Nat)

/-- `proc.kill()` on the stored process followed by
`delete emailLoginProcesses[key]` (a no-op when the key is absent). -/
def killKey (tbl : SessTable) (k : Str) : SessTable :=
  tbl.filter (fun e => ¬ e.1 = k)

/-- `` `${connector}:${accountId}` ``. -/
def sessKey (connector accountId : Str) : Str :=
  connector ++ ':' :: accountId

/-- Synchronous outcomes of the login-start handlers. -/
inductive LoginResp
  | started
  | needsSecret
  | alreadyRunning
deriving DecidableEq, Repr

/-- `POST /api/gmail/login`: an in-flight session for the key is killed and
removed first; without a stored OAuth client secret the request then fails
with `needs_client_secret`; otherwise the OAuth process is spawned and
stored under the key. -/
def gmailLoginStart (tbl : SessTable) (accountId : Str) (hasSecret : Bool)
    (pid : Nat) : SessTable × LoginResp :=
  let key := sessKey gmailName accountId
  let tbl1 := killKey tbl key
  if ¬ hasSecret then (tbl1, .needsSecret)
  else ((key, pid) :: tbl1, .started)

/-- `POST /api/work-email/login`: an in-flight session for the key is
killed and removed first, then the `gcloud` process is spawned and stored. -/
def workEmailLoginStart (tbl : SessTable) (accountId : Str) (pid : Nat) :
    SessTable × LoginResp :=
  let key := sessKey workEmailName accountId
  ((key, pid) :: killKey tbl key, .started)

/-- `POST /api/firebase/login`: when `firebaseLoginProcess` is set the
request returns `already_running` and the existing process is left alone;
otherwise the CLI login is spawned and stored. -/
def firebaseLoginStart (proc : Option Nat) (pid : Nat) : Option Nat × LoginResp :=
  match proc with
  | some q => (some q, .alreadyRunning)
  | none => (some pid, .started)

/-- Number of live sessions stored under a key. -/
def liveCount (tbl : SessTable) (k : Str) : Nat :=
  (tbl.filter (fun e => e.1 = k)).length

/-! ## Stream bridge (request/response SSE): `POST /api/chat` and
`POST /api/briefing` share this handler shape verbatim. -/

/-- Frames written to the SSE response.  Forwarded worker stdout lines are
kept distinct from the two synthetic frames the bridge itself produces. -/
inductive Frame
  | fwd (s : Str)
  | errEvent (msg : Str)
  | doneEvent
deriving DecidableEq, Repr

/-- A terminal frame of the bridge: the synthetic `{"type":"error"}` of the
spawn-error handler or the synthetic `{"type":"done"}` of the close
handler. -/
def isTerminal (f : Frame) : Bool :=
  match f with
  | .fwd _ => false
  | .errEvent _ => true
  | .doneEvent => true

/-- Events delivered to the handlers the bridge installs on the child
process. -/
inductive BridgeEv
  | dataChunk (s : Str)
  | spawnErr (msg : Str)
  | closeEv (code : Int)
deriving DecidableEq, Repr

/-- The response stream: frames written so far, the partial-line buffer and
whether `res.end()` has run (writes after `end` never reach the client). -/
structure BridgeSt where
  buffer : Str
  ended : Bool
  frames : List Frame
deriving DecidableEq, Repr

def BridgeSt.init : BridgeSt := ⟨[], false, []⟩

/-- `res.write` — dropped once the response has ended. -/
def bwrite (st : BridgeSt) (f : Frame) : BridgeSt :=
  if st.ended then st else { st with frames := st.frames ++ [f] }

/-- `proc.stdout.on('data')`: buffer the chunk, split on newlines, keep the
final partial line, forward every non-blank complete line as one SSE
frame. -/
def onData (st : BridgeSt) (chunk : Str) : BridgeSt :=
  let parts := splitOnNl (st.buffer ++ chunk)
  let newBuf := parts.getLastD []
  let lines := parts.dropLast
  let st1 := lines.foldl (fun s l => if trim l ≠ [] then bwrite s (.fwd l) else s) st
  { st1 with buffer := newBuf }

/-- `proc.on('error')`: write one synthetic error event and end the
response. -/
def onSpawnErr (st : BridgeSt) (msg : Str) : BridgeSt :=
  { bwrite st (.errEvent msg) with ended := true }

/-- `proc.on('close')`: flush the trailing partial line, write the
synthetic `{"type":"done"}` frame and end the response. -/
def onCloseEv (st : BridgeSt) : BridgeSt :=
  let st1 := if trim st.buffer ≠ [] then bwrite st (.fwd st.buffer) else st
  { bwrite st1 .doneEvent with ended := true }

def bridgeStep (st : BridgeSt) : BridgeEv → BridgeSt
  | .dataChunk s => onData st s
  | .spawnErr m => onSpawnErr st m
  | .closeEv _ => onCloseEv st

/-- A whole request-style bridge session: the handlers run over the event
sequence the child process delivers. -/
def runBridge (evs : List BridgeEv) : BridgeSt :=
  evs.foldl bridgeStep BridgeSt.init

/-- Event sequences a child process can deliver in a session that is not
aborted by a client disconnect: stdout chunks followed by `close`, or a
spawn failure (for which Node still emits `close` afterwards). -/
def ValidTrace (evs : List BridgeEv) : Prop :=
  (∃ (chunks : List Str) (code : Int),
      evs = chunks.map BridgeEv.dataChunk ++ [BridgeEv.closeEv code]) ∨
  (∃ msg, evs = [BridgeEv.spawnErr msg]) ∨
  (∃ msg code, evs = [BridgeEv.spawnErr msg, BridgeEv.closeEv code])

/-! ## Work-email login close handler -/

/-- `ageMs = Date.now() - stat.mtimeMs; ageMs < 60000`, `false` when the
ADC file is missing. -/
def adcFresh (nowMs : Nat) (adcMtime : Option Nat) : Bool :=
  match adcMtime with
  | some m => nowMs - m < 60000
  | none => false

/-- `registry.accounts.work_email` gains the account when its id is absent
(the close handler's immediate upsert). -/
def upsertWorkEmail (reg : Registry) (accountId : Str) : Registry :=
  let accts := (regLookup reg workEmailName).getD []
  if accts.any (fun a => a.id = accountId) then regSet reg workEmailName accts
  else regSet reg workEmailName (accts ++ [workEmailNewAccount accountId])

/-- Result of the `work_email` close handler: whether the flow was treated
as a success, and the file/registry state it leaves (the asynchronous
enrichment step is not part of this claim). -/
structure WeCloseResult where
  success : Bool
  files : List Str
  registry : Registry
deriving DecidableEq, Repr

/-- `proc.on('close')` of `POST /api/work-email/login`: a non-zero exit is
still a success when the ADC file was modified within the last 60 seconds;
on success the ADC data is copied to the account's token file (when the ADC
file is readable, `adcOk`) and the registry entry is ensured. -/
def workEmailClose (st : St) (accountId : Str) (code : Int) (nowMs : Nat)
    (adcMtime : Option Nat) (adcOk : Bool) : WeCloseResult :=
  let adcUpdated := adcFresh nowMs adcMtime
  if code ≠ 0 ∧ ¬ adcUpdated then ⟨false, st.files, st.registry⟩
  else if adcOk then
    ⟨true, insertFile st.files (getAccountCredentialFile workEmailName accountId),
      upsertWorkEmail st.registry accountId⟩
  else ⟨false, st.files, st.registry⟩

/-! ## Connector status (`GET /api/connectors`) -/

/-- The per-account `connected` flag computed while enriching a connector:
file existence for the e-mail connectors, presence of the derived env key
(or of all derived env keys) otherwise. -/
def acctConnected (cname : Str) (env : Str → Option Str) (fileEx : Str → Bool)
    (a : Account) : Bool :=
  if cname = gmailName ∨ cname = workEmailName then
    fileEx (getAccountCredentialFile cname a.id)
  else
    match truthy a.env_keyF with
    | some k => (env k).isSome
    | none =>
      match a.env_keysF with
      | some m => m.all (fun kv => match env kv.2 with
                                   | some v => v.length > 0
                                   | none => false)
      | none => false

/-- The connector-level `connected` flag before the registry accounts are
considered: Firebase auth plus project id, token-file existence for the
e-mail connectors, otherwise all required fields present and non-empty. -/
def baseConnected (c : ConnDef) (env : Str → Option Str) (fileEx : Str → Bool)
    (fbHasToken : Bool) : Bool :=
  if c.name = firebaseName then fbHasToken ∧ (env "FIREBASE_PROJECT_ID".toList).isSome
  else if c.name = gmailName then fileEx gmailPersonalPath
  else if c.name = workEmailName then fileEx gmailWorkPath
  else (c.envVars.filter (fun v => v.2)).all (fun v =>
    match env v.1 with
    | some s => s.length > 0
    | none => false)

/-- The final `connected` flag of one entry of `GET /api/connectors`:
the base check, or any registry account of the connector being
connected. -/
def connectorConnected (c : ConnDef) (env : Str → Option Str) (fileEx : Str → Bool)
    (fbHasToken : Bool) (accts : List Account) : Bool :=
  baseConnected c env fileEx fbHasToken ||
    accts.any (fun a => acctConnected c.name env fileEx a)

/-! ## Supporting lemmas: line splitting and trimming -/

theorem splitOnNl_ne_nil (s : Str) : splitOnNl s ≠ [] := by
  induction s with
  | nil => simp [splitOnNl]
  | cons c cs ih =>
    simp only [splitOnNl]
    split
    · simp
    · cases h : splitOnNl cs with
      | nil => exact absurd h ih
      | cons l ls => simp

theorem mem_splitOnNl_no_nl (s : Str) : ∀ l ∈ splitOnNl s, '\n' ∉ l := by
  induction s with
  | nil => intro l hl; simp [splitOnNl] at hl; simp [hl]
  | cons c cs ih =>
    intro l hl
    simp only [splitOnNl] at hl
    by_cases hc : c = '\n'
    · simp [hc] at hl
      rcases hl with h | h
      · simp [h]
      · exact ih l h
    · simp [hc] at hl
      cases h : splitOnNl cs with
      | nil => exact absurd h (splitOnNl_ne_nil cs)
      | cons l0 ls =>
        rw [h] at hl
        rcases List.mem_cons.mp hl with h1 | h1
        · subst h1
          intro hmem
          rcases List.mem_cons.mp hmem with h2 | h2
          · exact hc h2.symm
          · exact ih l0 (h ▸ List.mem_cons_self _ _) h2
        · exact ih l (h ▸ List.mem_cons_of_mem _ h1)

theorem splitOnNl_no_nl (s : Str) (h : '\n' ∉ s) : splitOnNl s = [s] := by
  induction s with
  | nil => rfl
  | cons c cs ih =>
    simp only [List.mem_cons, not_or] at h
    have hc : ¬ c = '\n' := fun hh => h.1 hh.symm
    simp [splitOnNl, hc, ih h.2]

theorem splitOnNl_append_nl (a b : Str) (h : '\n' ∉ a) :
    splitOnNl (a ++ '\n' :: b) = a :: splitOnNl b := by
  induction a with
  | nil => simp [splitOnNl]
  | cons c a' ih =>
    simp only [List.mem_cons, not_or] at h
    have hc : ¬ c = '\n' := fun hh => h.1 hh.symm
    simp [List.cons_append, splitOnNl, hc, ih h.2]

theorem splitOnNl_joinNl (parts : List Str) (hne : parts ≠ [])
    (h : ∀ l ∈ parts, '\n' ∉ l) : splitOnNl (joinNl parts) = parts := by
  induction parts with
  | nil => exact absurd rfl hne
  | cons l rest ih =>
    cases rest with
    | nil => exact splitOnNl_no_nl l (h l (List.mem_cons_self _ _))
    | cons l2 rest' =>
      have hjoin : joinNl (l :: l2 :: rest') = l ++ '\n' :: joinNl (l2 :: rest') := rfl
      rw [hjoin, splitOnNl_append_nl _ _ (h l (List.mem_cons_self _ _))]
      rw [ih (by simp) (fun x hx => h x (List.mem_cons_of_mem _ hx))]

theorem dropWhile_append_cons (p : Char → Bool) (A B : Str) (c : Char) (hc : p c = false) :
    List.dropWhile p (A ++ c :: B) = List.dropWhile p A ++ c :: B := by
  induction A with
  | nil => simp [List.dropWhile_cons, hc]
  | cons a A' ih =>
    by_cases ha : p a
    · simp [List.dropWhile_cons, ha, ih]
    · simp [List.dropWhile_cons, ha]

theorem dropWhile_idem (p : Char → Bool) (l : Str) :
    List.dropWhile p (List.dropWhile p l) = List.dropWhile p l := by
  induction l with
  | nil => rfl
  | cons a l' ih =>
    by_cases ha : p a
    · simp [List.dropWhile_cons, ha, ih]
    · simp [List.dropWhile_cons, ha]

theorem trimL_head_not_ws {c : Char} {s : Str} (h : trimL (c :: s) = c :: s) :
    isWs c = false := by
  by_contra hc
  have hc' : isWs c = true := by
    cases h2 : isWs c with
    | false => exact absurd h2 hc
    | true => rfl
  have : trimL (c :: s) = trimL s := by simp [trimL, List.dropWhile_cons, hc']
  rw [this] at h
  have hlen : (trimL s).length ≤ s.length := (List.dropWhile_suffix isWs).sublist.length_le
  rw [h] at hlen
  simp at hlen

theorem trimL_append {k : Str} (hk : trimL k = k) (hne : k ≠ []) (x : Str) :
    trimL (k ++ x) = k ++ x := by
  cases k with
  | nil => exact absurd rfl hne
  | cons c k' =>
    have hc := trimL_head_not_ws hk
    simp [trimL, List.dropWhile_cons, hc]

theorem trimL_idem (s : Str) : trimL (trimL s) = trimL s := dropWhile_idem _ _

theorem trimR_append_cons (x v : Str) (c : Char) (hc : isWs c = false) :
    trimR (x ++ c :: v) = x ++ c :: trimR v := by
  simp only [trimR, List.reverse_append, List.reverse_cons, List.append_assoc,
    List.singleton_append]
  rw [dropWhile_append_cons _ _ _ _ hc]
  simp

theorem trimR_pre (s : Str) : trimR s <+: s := by
  have h : List.dropWhile isWs s.reverse <:+ s.reverse := List.dropWhile_suffix _
  rw [← List.reverse_suffix]
  simpa [trimR] using h

theorem trimR_idem (s : Str) : trimR (trimR s) = trimR s := by
  simp [trimR, dropWhile_idem]

theorem trimL_sublist (s : Str) : List.Sublist (trimL s) s :=
  (List.dropWhile_suffix _).sublist

theorem trimR_sublist (s : Str) : List.Sublist (trimR s) s := (trimR_pre s).sublist

theorem trim_sublist (s : Str) : List.Sublist (trim s) s :=
  ((trimR_sublist (trimL s)).trans (trimL_sublist s))

theorem trimL_of_trimR_of_trimL {s : Str} (h : trimL s = s) :
    trimL (trimR s) = trimR s := by
  cases s with
  | nil => rfl
  | cons c s' =>
    have hc := trimL_head_not_ws h
    rcases trimR_pre (c :: s') with ⟨t, ht⟩
    cases hr : trimR (c :: s') with
    | nil => rfl
    | cons d r =>
      rw [hr] at ht
      have hd : d = c := by
        have := ht
        simp only [List.cons_append] at this
        exact (List.cons.injEq _ _ _ _ ▸ this).1
      subst hd
      simp [trimL, List.dropWhile_cons, hc]

theorem trimL_trim (s : Str) : trimL (trim s) = trim s := by
  simp only [trim]
  exact trimL_of_trimR_of_trimL (trimL_idem s)

theorem trimR_trim (s : Str) : trimR (trim s) = trim s := by
  simp only [trim, trimR_idem]

theorem trim_idem (s : Str) : trim (trim s) = trim s := by
  have h1 := trimL_trim s
  simp only [trim] at h1 ⊢
  rw [h1, trimR_idem]

theorem length_trimR_le (s : Str) : (trimR s).length ≤ s.length :=
  (trimR_sublist s).length_le

theorem trim_fix_parts {k : Str} (h : trim k = k) : trimL k = k ∧ trimR k = k := by
  have h1 : (trimL k).length ≤ k.length := (trimL_sublist k).length_le
  have h2 : (trimR (trimL k)).length ≤ (trimL k).length := length_trimR_le _
  have h3 : k.length ≤ (trimL k).length := by
    conv_lhs => rw [← h]
    simpa [trim] using h2
  have hlen : (trimL k).length = k.length := le_antisymm h1 h3
  have hL : trimL k = k := by
    have hsuf : trimL k <:+ k := List.dropWhile_suffix _
    exact List.IsSuffix.eq_of_length hsuf hlen
  refine ⟨hL, ?_⟩
  have := h
  simp only [trim, hL] at this
  exact this

theorem trim_keyval {k : Str} (hk : trimL k = k) (v : Str) :
    trim (k ++ '=' :: v) = k ++ '=' :: trimR v := by
  have heq : isWs '=' = false := by decide
  cases k with
  | nil =>
    simp only [List.nil_append, trim, trimL, List.dropWhile_cons, heq]
    exact trimR_append_cons [] v '=' heq
  | cons c k' =>
    have hc := trimL_head_not_ws hk
    have hL : trimL ((c :: k') ++ '=' :: v) = (c :: k') ++ '=' :: v := by
      simp [trimL, List.dropWhile_cons, hc]
    simp only [trim, hL]
    exact trimR_append_cons (c :: k') v '=' heq

/-! ## Supporting lemmas: line parsing -/

theorem splitFirstEq_of_no_eq {k : Str} (hk : '=' ∉ k) (v : Str) :
    splitFirstEq (k ++ '=' :: v) = some (k, v) := by
  induction k with
  | nil => simp [splitFirstEq]
  | cons c k' ih =>
    simp only [List.mem_cons, not_or] at hk
    have hc : ¬ c = '=' := fun hh => hk.1 hh.symm
    simp [splitFirstEq, hc, ih hk.2]

theorem splitFirstEq_some {s k v : Str} (h : splitFirstEq s = some (k, v)) :
    '=' ∉ k ∧ s = k ++ '=' :: v := by
  induction s generalizing k v with
  | nil => simp [splitFirstEq] at h
  | cons c cs ih =>
    simp only [splitFirstEq] at h
    by_cases hc : c = '='
    · simp [hc] at h
      rcases h with ⟨h1, h2⟩
      subst h1; subst h2
      simp [hc]
    · rw [if_neg hc] at h
      rcases Option.map_eq_some'.mp h with ⟨⟨k', v'⟩, hkv, hf⟩
      rcases ih hkv with ⟨hne, hs⟩
      have hk : k = c :: k' := by
        have := congrArg Prod.fst hf
        simpa using this.symm
      have hv : v = v' := by
        have := congrArg Prod.snd hf
        simpa using this.symm
      subst hk; subst hv
      constructor
      · simp only [List.mem_cons, not_or]
        exact ⟨fun hh => hc hh.symm, hne⟩
      · rw [hs, List.cons_append]

theorem strStarts_false_of_ne {c d : Char} {s : Str} (h : c ≠ d) :
    strStarts (c :: s) d = false := by
  simp [strStarts, h]

/-- Parsing the canonical line `k ++ "=" ++ v` for a fit key `k`. -/
theorem lineKV_keyval {k : Str} (hk : trim k = k) (hne : '=' ∉ k)
    (hh : strStarts k '#' = false) (v : Str) :
    lineKV (k ++ '=' :: v) = some (k, trimR v) := by
  have ht : trim (k ++ '=' :: v) = k ++ '=' :: trimR v := trim_keyval (trim_fix_parts hk).1 v
  have htne : k ++ '=' :: trimR v ≠ [] := by simp
  have hts : strStarts (k ++ '=' :: trimR v) '#' = false := by
    cases k with
    | nil => simp [strStarts]
    | cons c k' => simpa [strStarts] using (by simpa [strStarts] using hh : ¬ c = '#')
  simp only [lineKV, ht, if_neg htne, hts]
  simp only [Bool.false_eq_true, if_false]
  rw [splitFirstEq_of_no_eq hne (trimR v)]
  simp [hk]

theorem lineKV_some_props {l k vr : Str} (h : lineKV l = some (k, vr)) :
    trim k = k ∧ '=' ∉ k ∧ strStarts k '#' = false := by
  simp only [lineKV] at h
  by_cases h1 : trim l = []
  · simp [h1] at h
  · by_cases h2 : strStarts (trim l) '#' = true
    · simp [h1, h2] at h
    · simp only [h1, if_neg h1, h2] at h
      have h2' : strStarts (trim l) '#' = false := by
        cases hb : strStarts (trim l) '#' with
        | false => rfl
        | true => exact absurd hb h2
      simp only [h2', Bool.false_eq_true, if_false] at h
      cases hsp : splitFirstEq (trim l) with
      | none => rw [hsp] at h; simp at h
      | some pre =>
        rw [hsp] at h
        simp only [Option.some.injEq] at h
        rcases pre with ⟨p, vraw⟩
        have hkp : k = trim p ∧ vr = vraw := by
          have := h
          simp at this
          exact ⟨this.1.symm, this.2.symm⟩
        rcases splitFirstEq_some hsp with ⟨hnep, heq⟩
        refine ⟨?_, ?_, ?_⟩
        · rw [hkp.1]; exact trim_idem p
        · rw [hkp.1]
          intro hmem
          exact hnep ((trim_sublist p).subset hmem)
        · rw [hkp.1]
          cases hp : trim p with
          | nil => simp [strStarts]
          | cons c rest =>
            have hLt : trimL (trim l) = trim l := trimL_trim l
            cases p with
            | nil => simp [trim, trimL, trimR] at hp
            | cons d p' =>
              have hd : ¬ isWs d = true := by
                have : trimL (trim l) = trim l := hLt
                rw [heq] at this
                simp only [List.cons_append] at this
                intro hw
                exact (Bool.not_eq_true _).mpr (trimL_head_not_ws this) hw
              have hdL : trimL (d :: p') = d :: p' := by
                simp [trimL, List.dropWhile_cons, Bool.not_eq_true _ ▸ hd]
              have hpref : List.IsPrefix (trim (d :: p')) (d :: p') := by
                simp only [trim, hdL]
                exact trimR_pre (d :: p')
              rcases hpref with ⟨t, ht⟩
              rw [hp] at ht
              have hc : c = d := by
                simpa using congrArg (fun x => x.head?) ht
              subst hc
              have : strStarts (trim l) '#' = false := h2'
              rw [heq] at this
              simp only [List.cons_append, strStarts] at this
              simpa [strStarts] using this

theorem lineKey_eq_none {l : Str} (h : lineKV l = none) : lineKey l = none := by
  simp [lineKey, h]

theorem assignTo_none_of_lineKV_none {l : Str} (h : lineKV l = none) (k : Str) :
    assignTo l k = none := by
  simp [assignTo, h]

theorem resolveValue_plain {v : Str} (h1 : strStarts v '"' = false)
    (h2 : strStarts v '\'' = false) (h3 : cutSeq v = none)
    (h4 : strStarts v '#' = false) : resolveValue v = v := by
  simp [resolveValue, h1, h2, h3, h4]

theorem resolveValue_nil : resolveValue [] = [] := by decide

/-- The rewritten line `k ++ "="` of a cleared key assigns nothing. -/
theorem assignTo_cleared {k : Str} (hk : trim k = k) (hne : '=' ∉ k)
    (hh : strStarts k '#' = false) (k' : Str) :
    assignTo (k ++ ['=']) k' = none := by
  have h := lineKV_keyval hk hne hh []
  simp only [assignTo, h]
  simp [trim, trimL, trimR, resolveValue_nil]

theorem readLines_append (xs ys : List Str) (k : Str) :
    readLines (xs ++ ys) k =
      match readLines ys k with
      | some v => some v
      | none => readLines xs k := by
  induction xs with
  | nil =>
    simp only [List.nil_append]
    cases readLines ys k <;> simp [readLines]
  | cons x xs' ih =>
    simp only [List.cons_append, readLines, List.append_eq]
    rw [ih]
    cases readLines ys k with
    | none => cases readLines xs' k <;> simp
    | some v => simp

theorem readLines_none_iff (ls : List Str) (k : Str) :
    readLines ls k = none ↔ ∀ l ∈ ls, assignTo l k = none := by
  induction ls with
  | nil => simp [readLines]
  | cons l ls' ih =>
    simp only [readLines]
    cases h : readLines ls' k with
    | some v =>
      simp only []
      constructor
      · intro hc; simp at hc
      · intro hall
        have := (ih.mpr (fun x hx => hall x (List.mem_cons_of_mem _ hx)))
        rw [h] at this; simp at this
    | none =>
      simp only []
      constructor
      · intro ha l' hl'
        rcases List.mem_cons.mp hl' with h1 | h1
        · subst h1; exact ha
        · exact (ih.mp h) l' h1
      · intro hall
        exact hall l (List.mem_cons_self _ _)

theorem readLines_some_src {ls : List Str} {k w : Str} (h : readLines ls k = some w) :
    ∃ l ∈ ls, assignTo l k = some w := by
  induction ls with
  | nil => simp [readLines] at h
  | cons l ls' ih =>
    simp only [readLines] at h
    cases h2 : readLines ls' k with
    | some v =>
      rw [h2] at h
      simp only [Option.some.injEq] at h
      rcases ih (h2.trans (by rw [h])) with ⟨l', hl', ha⟩
      exact ⟨l', List.mem_cons_of_mem _ hl', ha⟩
    | none =>
      rw [h2] at h
      exact ⟨l, List.mem_cons_self _ _, h⟩

theorem readLines_eq_some {ls : List Str} {k v : Str}
    (h1 : ∀ l ∈ ls, assignTo l k = none ∨ assignTo l k = some v)
    (h2 : ∃ l ∈ ls, assignTo l k = some v) : readLines ls k = some v := by
  cases h : readLines ls k with
  | none =>
    rcases h2 with ⟨l, hl, ha⟩
    rw [(readLines_none_iff ls k).mp h l hl] at ha
    simp at ha
  | some w =>
    rcases readLines_some_src h with ⟨l, hl, ha⟩
    rcases h1 l hl with hn | hs
    · rw [hn] at ha; simp at ha
    · rw [hs] at ha
      simp only [Option.some.injEq] at ha
      exact congrArg some ha.symm

theorem updLookup_mem {u : EnvUpd} {k v : Str} (h : updLookup u k = some v) :
    (k, v) ∈ u := by
  induction u with
  | nil => simp [updLookup] at h
  | cons kv rest ih =>
    rcases kv with ⟨k', v'⟩
    simp only [updLookup] at h
    by_cases hk : k' = k
    · rw [if_pos hk] at h
      have hv : v' = v := by simpa using h
      subst hk; subst hv
      exact List.mem_cons_self _ _
    · rw [if_neg hk] at h
      exact List.mem_cons_of_mem _ (ih h)

theorem updLookup_isSome_of_mem {u : EnvUpd} {k v : Str} (h : (k, v) ∈ u) :
    (updLookup u k).isSome := by
  induction u with
  | nil => simp at h
  | cons kv rest ih =>
    rcases List.mem_cons.mp h with h1 | h1
    · subst h1; simp [updLookup]
    · rcases kv with ⟨k', v'⟩
      by_cases hk : k' = k
      · simp [updLookup, hk]
      · simp only [updLookup, if_neg hk]
        exact ih h1

theorem updLookup_of_mem_nodup {u : EnvUpd} {k v : Str}
    (hnd : (u.map Prod.fst).Nodup) (h : (k, v) ∈ u) : updLookup u k = some v := by
  induction u with
  | nil => simp at h
  | cons kv rest ih =>
    rcases kv with ⟨k', v'⟩
    simp only [List.map_cons, List.nodup_cons] at hnd
    rcases List.mem_cons.mp h with h1 | h1
    · rw [Prod.mk.injEq] at h1
      simp [updLookup, h1.1, h1.2]
    · have hk : k' ≠ k := by
        intro hc
        subst hc
        exact hnd.1 (List.mem_map.mpr ⟨(k', v), h1, rfl⟩)
      simp only [updLookup, if_neg hk]
      exact ih hnd.2 h1

/-! ## Supporting lemmas: `writeEnv` and `readEnv` interplay -/

theorem lineKV_nil : lineKV ([] : Str) = none := by decide

theorem lineKey_some_iff {l k : Str} :
    lineKey l = some k ↔ ∃ vr, lineKV l = some (k, vr) := by
  simp only [lineKey]
  cases h : lineKV l with
  | none => simp
  | some p =>
    rcases p with ⟨k0, v0⟩
    simp only [Option.map_some']
    constructor
    · intro h2
      have hk0 : k0 = k := by simpa using h2
      exact ⟨v0, by rw [hk0]⟩
    · rintro ⟨vr, h2⟩
      simp only [Option.some.injEq, Prod.mk.injEq] at h2
      simp [h2.1]

theorem lineKV_of_lineKey_none {l : Str} (h : lineKey l = none) : lineKV l = none := by
  cases h2 : lineKV l with
  | none => rfl
  | some p =>
    rw [lineKey, h2] at h
    simp at h

theorem lineKV_inv {l k vr : Str} (h : lineKV l = some (k, vr)) :
    ∃ pre, splitFirstEq (trim l) = some (pre, vr) ∧ k = trim pre := by
  simp only [lineKV] at h
  by_cases h1 : trim l = []
  · simp [h1] at h
  · rw [if_neg h1] at h
    by_cases h2 : strStarts (trim l) '#' = true
    · simp [h2] at h
    · have h2' : strStarts (trim l) '#' = false := by
        cases hb : strStarts (trim l) '#' with
        | false => rfl
        | true => exact absurd hb h2
      rw [h2'] at h
      simp only [Bool.false_eq_true, if_false] at h
      cases hsp : splitFirstEq (trim l) with
      | none => rw [hsp] at h; simp at h
      | some pre =>
        rw [hsp] at h
        rcases pre with ⟨p, vraw⟩
        simp only [Option.some.injEq, Prod.mk.injEq] at h
        refine ⟨p, ?_, h.1.symm⟩
        simp [hsp, h.2]

theorem lineKV_key_sublist {l k vr : Str} (h : lineKV l = some (k, vr)) :
    List.Sublist k l := by
  rcases lineKV_inv h with ⟨pre, hsp, hk⟩
  have h1 : List.Sublist (trim l) l := trim_sublist l
  have heq := (splitFirstEq_some hsp).2
  have hpre : List.Sublist pre (trim l) := by
    rw [heq]
    exact List.sublist_append_left pre ('=' :: vr)
  have h2 : List.Sublist k pre := hk ▸ trim_sublist pre
  exact h2.trans (hpre.trans h1)

theorem no_nl_key {l k vr : Str} (hnl : '\n' ∉ l) (h : lineKV l = some (k, vr)) :
    '\n' ∉ k := fun hm => hnl ((lineKV_key_sublist h).subset hm)

theorem replaceLine_of_none {u : EnvUpd} {l : Str} (h : lineKey l = none) :
    replaceLine u l = l := by
  simp [replaceLine, h]

theorem replaceLine_of_noUpd {u : EnvUpd} {l k : Str} (h : lineKey l = some k)
    (h2 : updLookup u k = none) : replaceLine u l = l := by
  simp [replaceLine, h, h2]

theorem replaceLine_of_upd {u : EnvUpd} {l k v : Str} (h : lineKey l = some k)
    (h2 : updLookup u k = some v) : replaceLine u l = k ++ '=' :: v := by
  simp [replaceLine, h, h2]

theorem lineKey_keyval {k : Str} (hk : trim k = k) (hne : '=' ∉ k)
    (hh : strStarts k '#' = false) (v : Str) :
    lineKey (k ++ '=' :: v) = some k := by
  simp [lineKey, lineKV_keyval hk hne hh v]

theorem lineKey_replaceLine (u : EnvUpd) (l : Str) :
    lineKey (replaceLine u l) = lineKey l := by
  cases h : lineKey l with
  | none => rw [replaceLine_of_none h, h]
  | some k =>
    cases h2 : updLookup u k with
    | none => rw [replaceLine_of_noUpd h h2, h]
    | some v =>
      rw [replaceLine_of_upd h h2]
      rcases lineKey_some_iff.mp h with ⟨vr, hkv⟩
      have hp := lineKV_some_props hkv
      exact lineKey_keyval hp.1 hp.2.1 hp.2.2 v

theorem fileLines_no_nl (f : Option Str) : ∀ l ∈ fileLines f, '\n' ∉ l := by
  cases f with
  | none => intro l hl; simp [fileLines] at hl
  | some c => exact fun l hl => mem_splitOnNl_no_nl c l hl

theorem replaceLine_no_nl {u : EnvUpd} (hu : ∀ kv ∈ u, '\n' ∉ kv.2) {l : Str}
    (hl : '\n' ∉ l) : '\n' ∉ replaceLine u l := by
  cases h : lineKey l with
  | none => rw [replaceLine_of_none h]; exact hl
  | some k =>
    cases h2 : updLookup u k with
    | none => rw [replaceLine_of_noUpd h h2]; exact hl
    | some v =>
      rw [replaceLine_of_upd h h2]
      rcases lineKey_some_iff.mp h with ⟨vr, hkv⟩
      have hknl : '\n' ∉ k := no_nl_key hl hkv
      have hvnl : '\n' ∉ v := hu (k, v) (updLookup_mem h2)
      intro hm
      rcases List.mem_append.mp hm with hm1 | hm1
      · exact hknl hm1
      · rcases List.mem_cons.mp hm1 with hm2 | hm2
        · exact absurd hm2 (by decide)
        · exact hvnl hm2

theorem writeAppends_subset_lines {lines : List Str} {u : EnvUpd} {l : Str}
    (h : l ∈ writeAppends lines u) :
    ∃ kv ∈ u, keyPresent lines kv.1 = false ∧ kv.2 ≠ [] ∧ l = kv.1 ++ '=' :: kv.2 := by
  simp only [writeAppends, List.mem_map, List.mem_filter] at h
  rcases h with ⟨kv, ⟨hmem, hpred⟩, rfl⟩
  simp only [Bool.and_eq_true, decide_eq_true_eq, Bool.not_eq_true'] at hpred
  refine ⟨kv, hmem, ?_, ?_, rfl⟩
  · simpa using hpred.1
  · simpa using hpred.2

theorem writeLines_no_nl {f : Option Str} {u : EnvUpd}
    (hu : ∀ kv ∈ u, '\n' ∉ kv.1 ∧ '\n' ∉ kv.2) :
    ∀ l ∈ writeLines f u, '\n' ∉ l := by
  intro l hl
  rcases List.mem_append.mp hl with h1 | h1
  · rcases List.mem_map.mp h1 with ⟨l0, hl0, rfl⟩
    exact replaceLine_no_nl (fun kv hkv => (hu kv hkv).2) (fileLines_no_nl f l0 hl0)
  · rcases writeAppends_subset_lines h1 with ⟨kv, hmem, _, _, rfl⟩
    intro hm
    rcases List.mem_append.mp hm with hm1 | hm1
    · exact (hu kv hmem).1 hm1
    · rcases List.mem_cons.mp hm1 with hm2 | hm2
      · exact absurd hm2 (by decide)
      · exact (hu kv hmem).2 hm2

theorem writeAppends_nil_of_clear {lines : List Str} {u : EnvUpd}
    (hall : ∀ kv ∈ u, kv.2 = ([] : Str)) : writeAppends lines u = [] := by
  simp only [writeAppends, List.map_eq_nil_iff]
  apply List.filter_eq_nil_iff.mpr
  intro kv hkv
  simp [hall kv hkv]

theorem readEnv_nil (k : Str) : readEnv [] k = none := by
  simp [readEnv, splitOnNl, readLines, assignTo, lineKV_nil]

theorem readEnv_joinNl {ls : List Str} (hne : ls ≠ []) (hnl : ∀ l ∈ ls, '\n' ∉ l)
    (k : Str) : readEnv (joinNl ls) k = readLines ls k := by
  rw [readEnv, splitOnNl_joinNl ls hne hnl]

/-- Clearing keys: writing an update whose values are all empty makes every
key of the update read as absent afterwards, whatever the starting file. -/
theorem readEnv_write_clear (f : Option Str) (u : EnvUpd) (k : Str)
    (hall : ∀ kv ∈ u, kv.2 = ([] : Str)) (hk : (updLookup u k).isSome = true) :
    readEnv (writeEnv f u) k = none := by
  have happ : writeAppends (fileLines f) u = [] := writeAppends_nil_of_clear hall
  have hwl : writeLines f u = (fileLines f).map (replaceLine u) := by
    simp [writeLines, happ]
  have hassign : ∀ l' ∈ writeLines f u, assignTo l' k = none := by
    rw [hwl]
    intro l' hl'
    rcases List.mem_map.mp hl' with ⟨l, hlmem, rfl⟩
    cases hkey : lineKey l with
    | none =>
      rw [replaceLine_of_none hkey]
      exact assignTo_none_of_lineKV_none (lineKV_of_lineKey_none hkey) k
    | some k0 =>
      rcases lineKey_some_iff.mp hkey with ⟨vr, hkv⟩
      cases hlk : updLookup u k0 with
      | none =>
        rw [replaceLine_of_noUpd hkey hlk]
        have hne : ¬ k0 = k := by
          intro hkk
          rw [← hkk] at hk
          rw [hlk] at hk
          simp at hk
        simp [assignTo, hkv, hne]
      | some v0 =>
        have hv0 : v0 = [] := hall (k0, v0) (updLookup_mem hlk)
        rw [replaceLine_of_upd hkey hlk, hv0]
        have hp := lineKV_some_props hkv
        exact assignTo_cleared hp.1 hp.2.1 hp.2.2 k
  by_cases hemp : writeLines f u = []
  · rw [writeEnv, hemp]
    exact readEnv_nil k
  · have hnl : ∀ l ∈ writeLines f u, '\n' ∉ l := by
      rw [hwl]
      intro l hl
      rcases List.mem_map.mp hl with ⟨l0, hl0, rfl⟩
      refine replaceLine_no_nl ?_ (fileLines_no_nl f l0 hl0)
      intro kv hkv
      rw [hall kv hkv]
      simp
    rw [writeEnv, readEnv_joinNl hemp hnl k]
    exact (readLines_none_iff _ _).mpr hassign

theorem updLookup_single_self (K V : Str) : updLookup [(K, V)] K = some V := by
  simp [updLookup]

theorem updLookup_single_other {K k0 : Str} (V : Str) (h : ¬ k0 = K) :
    updLookup [(K, V)] k0 = none := by
  have h2 : ¬ K = k0 := fun hh => h hh.symm
  simp [updLookup, h2]

theorem keyPresent_iff {lines : List Str} {k : Str} :
    keyPresent lines k = true ↔ ∃ l ∈ lines, lineKey l = some k := by
  simp [keyPresent, List.any_eq_true]

/-- The canonical line `K ++ "=" ++ V` written by `writeEnv` assigns `V` to
`K` when both are fit for storage. -/
theorem assignTo_keyval {K V : Str} (hK1 : trim K = K) (hK2 : '=' ∉ K)
    (hK3 : strStarts K '#' = false) (hV1 : trim V = V) (hV2 : V ≠ [])
    (hV3 : strStarts V '"' = false) (hV4 : strStarts V '\'' = false)
    (hV5 : cutSeq V = none) (hV6 : strStarts V '#' = false) :
    assignTo (K ++ '=' :: V) K = some V := by
  have hkv := lineKV_keyval hK1 hK2 hK3 V
  rw [(trim_fix_parts hV1).2] at hkv
  have hres : resolveValue (trim V) = V := by
    rw [hV1]
    exact resolveValue_plain hV3 hV4 hV5 hV6
  simp [assignTo, hkv, hres, hV2]

/-- Round-trip: after `writeEnv` of a single fit key/value pair, `readEnv`
yields exactly that value, whatever the starting file state. -/
theorem readEnv_write_roundtrip (f : Option Str) (K V : Str)
    (hK1 : trim K = K) (hK2 : '=' ∉ K) (hK3 : strStarts K '#' = false)
    (hK4 : '\n' ∉ K) (hV1 : trim V = V) (hV2 : V ≠ []) (hV3 : '\n' ∉ V)
    (hV4 : strStarts V '"' = false) (hV5 : strStarts V '\'' = false)
    (hV6 : cutSeq V = none) (hV7 : strStarts V '#' = false) :
    readEnv (writeEnv f [(K, V)]) K = some V := by
  have hassignKV : assignTo (K ++ '=' :: V) K = some V :=
    assignTo_keyval hK1 hK2 hK3 hV1 hV2 hV4 hV5 hV6 hV7
  have hnl : ∀ l ∈ writeLines f [(K, V)], '\n' ∉ l := by
    apply writeLines_no_nl
    intro kv hkv
    simp only [List.mem_singleton] at hkv
    subst hkv
    exact ⟨hK4, hV3⟩
  cases hkp : keyPresent (fileLines f) K with
  | true =>
    have happ : writeAppends (fileLines f) [(K, V)] = [] := by
      simp [writeAppends, List.filter, hkp]
    have hmain : readLines (writeLines f [(K, V)]) K = some V := by
      apply readLines_eq_some
      · intro l' hl'
        rw [writeLines, happ, List.append_nil] at hl'
        rcases List.mem_map.mp hl' with ⟨l, hlmem, rfl⟩
        cases hkey : lineKey l with
        | none =>
          left
          rw [replaceLine_of_none hkey]
          exact assignTo_none_of_lineKV_none (lineKV_of_lineKey_none hkey) K
        | some k0 =>
          by_cases hk0 : k0 = K
          · subst hk0
            right
            rw [replaceLine_of_upd hkey (updLookup_single_self k0 V)]
            exact hassignKV
          · left
            rw [replaceLine_of_noUpd hkey (updLookup_single_other V hk0)]
            rcases lineKey_some_iff.mp hkey with ⟨vr, hkv⟩
            simp [assignTo, hkv, hk0]
      · rcases keyPresent_iff.mp hkp with ⟨l, hlmem, hkey⟩
        refine ⟨replaceLine [(K, V)] l, ?_, ?_⟩
        · rw [writeLines, happ, List.append_nil]
          exact List.mem_map_of_mem _ hlmem
        · rw [replaceLine_of_upd hkey (updLookup_single_self K V)]
          exact hassignKV
    have hlne : writeLines f [(K, V)] ≠ [] := by
      rcases keyPresent_iff.mp hkp with ⟨l, hlmem, _⟩
      rw [writeLines]
      intro hc
      rcases List.append_eq_nil.mp hc with ⟨h1, _⟩
      rw [List.map_eq_nil_iff] at h1
      rw [h1] at hlmem
      simp at hlmem
    rw [writeEnv, readEnv_joinNl hlne hnl K]
    exact hmain
  | false =>
    have happ : writeAppends (fileLines f) [(K, V)] = [K ++ '=' :: V] := by
      simp [writeAppends, List.filter, hkp, hV2]
    have hlne : writeLines f [(K, V)] ≠ [] := by
      rw [writeLines, happ]
      simp
    rw [writeEnv, readEnv_joinNl hlne hnl K, writeLines, happ, readLines_append]
    simp [readLines, hassignKV]

/-! ## Supporting lemmas: idempotence of `writeEnv` -/

/-- A key fit for storage in the line-oriented file: self-trimmed, free of
`'='`, `'#'`-starts and newlines. -/
def GoodKey (k : Str) : Prop :=
  trim k = k ∧ '=' ∉ k ∧ strStarts k '#' = false ∧ '\n' ∉ k

instance (k : Str) : Decidable (GoodKey k) := by
  unfold GoodKey
  infer_instance

theorem replaceLine_stable {u : EnvUpd}
    (hkeys : ∀ kv ∈ u, GoodKey kv.1) (hnd : (u.map Prod.fst).Nodup)
    {f : Option Str} : ∀ l' ∈ writeLines f u, replaceLine u l' = l' := by
  intro l' hl'
  rcases List.mem_append.mp hl' with h1 | h1
  · rcases List.mem_map.mp h1 with ⟨l, hlmem, rfl⟩
    cases hkey : lineKey l with
    | none =>
      rw [replaceLine_of_none hkey, replaceLine_of_none hkey]
    | some k0 =>
      cases hlk : updLookup u k0 with
      | none =>
        rw [replaceLine_of_noUpd hkey hlk, replaceLine_of_noUpd hkey hlk]
      | some v0 =>
        rw [replaceLine_of_upd hkey hlk]
        rcases lineKey_some_iff.mp hkey with ⟨vr, hkv⟩
        have hp := lineKV_some_props hkv
        have hkey2 : lineKey (k0 ++ '=' :: v0) = some k0 :=
          lineKey_keyval hp.1 hp.2.1 hp.2.2 v0
        rw [replaceLine_of_upd hkey2 hlk]
  · rcases writeAppends_subset_lines h1 with ⟨kv, hmem, _, _, rfl⟩
    have hg := hkeys kv hmem
    have hkey2 : lineKey (kv.1 ++ '=' :: kv.2) = some kv.1 :=
      lineKey_keyval hg.1 hg.2.1 hg.2.2.1 kv.2
    rw [replaceLine_of_upd hkey2 (updLookup_of_mem_nodup hnd (by exact hmem))]

theorem keyPresent_writeLines {u : EnvUpd}
    (hkeys : ∀ kv ∈ u, GoodKey kv.1) {f : Option Str} :
    ∀ kv ∈ u, kv.2 ≠ [] → keyPresent (writeLines f u) kv.1 = true := by
  intro kv hmem hv
  cases hkp : keyPresent (fileLines f) kv.1 with
  | true =>
    rcases keyPresent_iff.mp hkp with ⟨l, hlmem, hkey⟩
    rcases Option.isSome_iff_exists.mp
      (updLookup_isSome_of_mem hmem : (updLookup u kv.1).isSome) with ⟨v', hlk⟩
    apply keyPresent_iff.mpr
    refine ⟨replaceLine u l, ?_, ?_⟩
    · exact List.mem_append.mpr (Or.inl (List.mem_map_of_mem _ hlmem))
    · rw [lineKey_replaceLine, hkey]
  | false =>
    apply keyPresent_iff.mpr
    refine ⟨kv.1 ++ '=' :: kv.2, ?_, ?_⟩
    · apply List.mem_append.mpr
      right
      simp only [writeAppends, List.mem_map, List.mem_filter]
      refine ⟨kv, ⟨hmem, ?_⟩, rfl⟩
      simp [hkp, hv]
    · have hg := hkeys kv hmem
      exact lineKey_keyval hg.1 hg.2.1 hg.2.2.1 kv.2

theorem replaceLine_nil (u : EnvUpd) : replaceLine u [] = [] :=
  replaceLine_of_none (by simp [lineKey, lineKV_nil])

theorem writeAppends_nil_lines_iff {u : EnvUpd} :
    writeAppends ([] : List Str) u = [] ↔ ∀ kv ∈ u, kv.2 = ([] : Str) := by
  constructor
  · intro h kv hmem
    by_contra hv
    have : kv ∈ u.filter (fun kv => ¬ keyPresent [] kv.1 ∧ kv.2 ≠ []) := by
      apply List.mem_filter.mpr
      refine ⟨hmem, ?_⟩
      simp [keyPresent, hv]
    rw [writeAppends] at h
    rw [List.map_eq_nil_iff] at h
    rw [h] at this
    simp at this
  · exact writeAppends_nil_of_clear

/-- Writing the same fit update twice produces the same file as writing it
once. -/
theorem writeEnv_idem (f : Option Str) (u : EnvUpd)
    (hkeys : ∀ kv ∈ u, GoodKey kv.1) (hvals : ∀ kv ∈ u, '\n' ∉ kv.2)
    (hnd : (u.map Prod.fst).Nodup) :
    writeEnv (some (writeEnv f u)) u = writeEnv f u := by
  by_cases hemp : writeLines f u = []
  · have hW : writeEnv f u = [] := by rw [writeEnv, hemp]; rfl
    rcases List.append_eq_nil.mp hemp with ⟨h1, h2⟩
    have hfl : fileLines f = [] := by
      rw [List.map_eq_nil_iff] at h1
      exact h1
    have hclear : ∀ kv ∈ u, kv.2 = ([] : Str) := by
      rw [hfl] at h2
      exact writeAppends_nil_lines_iff.mp h2
    rw [hW, writeEnv]
    have hfl2 : fileLines (some []) = [[]] := rfl
    rw [writeLines, hfl2]
    have hmap : List.map (replaceLine u) [[]] = [[]] := by
      simp [replaceLine_nil]
    rw [hmap, writeAppends_nil_of_clear hclear]
    rfl
  · have hnl : ∀ l ∈ writeLines f u, '\n' ∉ l :=
      writeLines_no_nl (fun kv hkv => ⟨(hkeys kv hkv).2.2.2, hvals kv hkv⟩)
    have hfl : fileLines (some (writeEnv f u)) = writeLines f u := by
      rw [fileLines, writeEnv, splitOnNl_joinNl _ hemp hnl]
    conv_lhs => rw [writeEnv, writeLines, hfl]
    have hmap : List.map (replaceLine u) (writeLines f u) = writeLines f u := by
      apply List.map_congr_left ?_ |>.trans (List.map_id _)
      exact fun l hl => replaceLine_stable hkeys hnd l hl
    have happ : writeAppends (writeLines f u) u = [] := by
      rw [writeAppends]
      simp only [List.map_eq_nil_iff]
      apply List.filter_eq_nil_iff.mpr
      intro kv hmem
      by_cases hv : kv.2 = ([] : Str)
      · simp [hv]
      · simp [keyPresent_writeLines hkeys kv hmem hv, hv]
    rw [hmap, happ, List.append_nil, writeEnv]

/-- The parsed keys of the lines of a file state. -/
def lineKeys (ls : List Str) : List Str := ls.filterMap lineKey

theorem filterMap_some_fst (L : List (Str × Str)) :
    L.filterMap (fun x => some x.1) = L.map Prod.fst := by
  induction L with
  | nil => rfl
  | cons a l ih => simp [List.filterMap_cons, ih]

/-- `writeEnv` with fit, duplicate-free update keys never introduces a
duplicated key line. -/
theorem writeEnv_nodup_keys (f : Option Str) (u : EnvUpd)
    (hkeys : ∀ kv ∈ u, GoodKey kv.1) (hvals : ∀ kv ∈ u, '\n' ∉ kv.2)
    (hnd : (u.map Prod.fst).Nodup) (h0 : (lineKeys (fileLines f)).Nodup) :
    (lineKeys (fileLines (some (writeEnv f u)))).Nodup := by
  by_cases hemp : writeLines f u = []
  · have hW : writeEnv f u = [] := by rw [writeEnv, hemp]; rfl
    rw [hW]
    have : lineKeys (fileLines (some [])) = [] := by
      simp [lineKeys, fileLines, splitOnNl, lineKey, lineKV_nil]
    rw [this]
    exact List.nodup_nil
  · have hnl : ∀ l ∈ writeLines f u, '\n' ∉ l :=
      writeLines_no_nl (fun kv hkv => ⟨(hkeys kv hkv).2.2.2, hvals kv hkv⟩)
    have hfl : fileLines (some (writeEnv f u)) = writeLines f u := by
      rw [fileLines, writeEnv, splitOnNl_joinNl _ hemp hnl]
    rw [hfl, writeLines, lineKeys, List.filterMap_append]
    have hmapped : ((fileLines f).map (replaceLine u)).filterMap lineKey
        = lineKeys (fileLines f) := by
      rw [List.filterMap_map]
      exact List.filterMap_congr (fun l _ => lineKey_replaceLine u l)
    have happk : (writeAppends (fileLines f) u).filterMap lineKey
        = (u.filter (fun kv => ¬ keyPresent (fileLines f) kv.1 ∧ kv.2 ≠ [])).map
            Prod.fst := by
      rw [writeAppends, List.filterMap_map]
      have : ∀ kv ∈ u.filter (fun kv => ¬ keyPresent (fileLines f) kv.1 ∧ kv.2 ≠ []),
          (lineKey ∘ fun kv => kv.1 ++ '=' :: kv.2) kv = some kv.1 := by
        intro kv hkv
        have hmem : kv ∈ u := List.mem_of_mem_filter hkv
        have hg := hkeys kv hmem
        exact lineKey_keyval hg.1 hg.2.1 hg.2.2.1 kv.2
      rw [List.filterMap_congr this]
      exact filterMap_some_fst _
    rw [hmapped, happk]
    apply List.Nodup.append h0
    · exact ((List.filter_sublist u).map Prod.fst).nodup hnd
    · intro x hx1 hx2
      rcases List.mem_filterMap.mp hx1 with ⟨l, hlmem, hkey⟩
      rcases List.mem_map.mp hx2 with ⟨kv, hkvf, rfl⟩
      have hpred := (List.mem_filter.mp hkvf).2
      simp only [Bool.and_eq_true, decide_eq_true_eq, Bool.not_eq_true'] at hpred
      have : keyPresent (fileLines f) kv.1 = true :=
        keyPresent_iff.mpr ⟨l, hlmem, hkey⟩
      rw [this] at hpred
      rcases hpred with ⟨hc, _⟩
      simp at hc

/-! ## Supporting lemmas: stream bridge and state helpers -/

/-- Invariant of a live stream: the response is not ended and no terminal
frame has been written yet. -/
def NoTermSt (st : BridgeSt) : Prop :=
  st.ended = false ∧ ∀ f ∈ st.frames, isTerminal f = false

theorem noTermSt_init : NoTermSt BridgeSt.init := ⟨rfl, by intro f hf; simp [BridgeSt.init] at hf⟩

theorem bwrite_fwd_noTerm {st : BridgeSt} (h : NoTermSt st) (s : Str) :
    NoTermSt (bwrite st (.fwd s)) := by
  rcases h with ⟨he, hf⟩
  rw [bwrite, he]
  simp only [Bool.false_eq_true, if_false]
  refine ⟨rfl, ?_⟩
  intro f hmem
  rcases List.mem_append.mp hmem with h1 | h1
  · exact hf f h1
  · simp only [List.mem_singleton] at h1
    subst h1
    rfl

theorem onData_noTerm {st : BridgeSt} (h : NoTermSt st) (c : Str) :
    NoTermSt (onData st c) := by
  rw [onData]
  have hfold : ∀ (lines : List Str) (st0 : BridgeSt), NoTermSt st0 →
      NoTermSt (lines.foldl
        (fun s l => if trim l ≠ [] then bwrite s (.fwd l) else s) st0) := by
    intro lines
    induction lines with
    | nil => intro st0 h0; exact h0
    | cons l ls ih =>
      intro st0 h0
      simp only [List.foldl_cons]
      apply ih
      by_cases hl : trim l ≠ []
      · rw [if_pos hl]; exact bwrite_fwd_noTerm h0 l
      · rw [if_neg hl]; exact h0
  have h1 := hfold (splitOnNl (st.buffer ++ c)).dropLast st h
  exact ⟨h1.1, h1.2⟩

theorem runBridge_data_noTerm (chunks : List Str) :
    NoTermSt ((chunks.map BridgeEv.dataChunk).foldl bridgeStep BridgeSt.init) := by
  rw [List.foldl_map]
  induction chunks using List.reverseRecOn with
  | nil => exact noTermSt_init
  | append_singleton cs c ih =>
    rw [List.foldl_append]
    exact onData_noTerm ih c

theorem onCloseEv_terminal {st : BridgeSt} (h : NoTermSt st) :
    ∃ pre, (onCloseEv st).frames = pre ++ [Frame.doneEvent] ∧
      (∀ f ∈ pre, isTerminal f = false) ∧ (onCloseEv st).ended = true := by
  rw [onCloseEv]
  have h1 : NoTermSt (if trim st.buffer ≠ [] then bwrite st (.fwd st.buffer) else st) := by
    by_cases hb : trim st.buffer ≠ []
    · rw [if_pos hb]; exact bwrite_fwd_noTerm h st.buffer
    · rw [if_neg hb]; exact h
  set st1 := if trim st.buffer ≠ [] then bwrite st (.fwd st.buffer) else st with hst1
  refine ⟨st1.frames, ?_, h1.2, rfl⟩
  simp [bwrite, h1.1]

theorem deleteFile_not_mem (fs : List Str) (p : Str) : p ∉ deleteFile fs p := by
  intro h
  have := List.mem_filter.mp h
  simp at this

theorem insertFile_mem (fs : List Str) (p : Str) : p ∈ insertFile fs p := by
  rw [insertFile]
  by_cases h : p ∈ fs
  · rw [if_pos h]; exact h
  · rw [if_neg h]; exact List.mem_cons_self _ _

theorem liveCount_replace (tbl : SessTable) (k : Str) (pid : Nat) :
    liveCount ((k, pid) :: killKey tbl k) k = 1 := by
  rw [liveCount, killKey]
  have h0 : (tbl.filter (fun e => ¬ e.1 = k)).filter (fun e => e.1 = k) = [] := by
    apply List.filter_eq_nil_iff.mpr
    intro e he
    have := (List.mem_filter.mp he).2
    simp only [decide_eq_true_eq] at this
    simp [this]
  simp [List.filter_cons, h0]

theorem killKey_no_key (tbl : SessTable) (k : Str) :
    ∀ e ∈ killKey tbl k, ¬ e.1 = k := by
  intro e he
  have := (List.mem_filter.mp he).2
  simpa using this

theorem mem_regSet {r : Registry} {c : Str} {l : List Account}
    {p : Str × List Account} (h : p ∈ regSet r c l) : p ∈ r ∨ p = (c, l) := by
  induction r with
  | nil =>
    simp only [regSet, List.mem_singleton] at h
    exact Or.inr h
  | cons q rest ih =>
    rcases q with ⟨c', l'⟩
    simp only [regSet] at h
    by_cases hc : c' = c
    · rw [if_pos hc] at h
      rcases List.mem_cons.mp h with h1 | h1
      · exact Or.inr h1
      · exact Or.inl (List.mem_cons_of_mem _ h1)
    · rw [if_neg hc] at h
      rcases List.mem_cons.mp h with h1 | h1
      · exact Or.inl (h1 ▸ List.mem_cons_self _ _)
      · rcases ih h1 with h2 | h2
        · exact Or.inl (List.mem_cons_of_mem _ h2)
        · exact Or.inr h2

theorem seedStep_locators {r : Registry} {cond : Bool} {c : Str} {l : List Account}
    (hr : ∀ p ∈ r, ∀ a ∈ p.2, locCount a = 1) (hl : ∀ a ∈ l, locCount a = 1) :
    ∀ p ∈ seedStep cond c l r, ∀ a ∈ p.2, locCount a = 1 := by
  intro p hp
  rw [seedStep] at hp
  by_cases hc : cond = true
  · rw [if_pos hc] at hp
    rcases mem_regSet hp with h | h
    · exact hr p h
    · subst h; exact hl
  · rw [if_neg hc] at hp
    exact hr p hp

theorem seedRegistry_locators (gt wt : Bool) (ge we : Option Str)
    (env : Str → Option Str) :
    ∀ p ∈ seedRegistry gt wt ge we env, ∀ a ∈ p.2, locCount a = 1 := by
  rw [seedRegistry]
  apply seedStep_locators
  · apply seedStep_locators
    · apply seedStep_locators
      · apply seedStep_locators
        · apply seedStep_locators
          · intro p hp; simp at hp
          · intro a ha
            simp only [List.mem_singleton] at ha
            subst ha
            rfl
        · intro a ha
          simp only [List.mem_singleton] at ha
          subst ha
          rfl
      · intro a ha
        simp only [List.mem_singleton] at ha
        subst ha
        rfl
    · intro a ha
      simp only [List.mem_singleton] at ha
      subst ha
      rfl
  · intro a ha
    simp only [List.mem_singleton] at ha
    subst ha
    rfl

/-! ## Claim theorems -/

/-- C1: every request-style stream session (`POST /api/chat` and
`POST /api/briefing` install identical handlers) writes exactly one
synthetic terminal frame — the spawn-error event or the `done` event —
to the SSE stream before closing it: the frame list ends in one terminal
frame, all earlier frames are forwarded worker lines, and the response is
ended, including when spawning the worker fails immediately. -/
theorem chat_stream_single_terminal (evs : List BridgeEv) (h : ValidTrace evs) :
    ∃ pre t, (runBridge evs).frames = pre ++ [t] ∧ isTerminal t = true ∧
      (∀ f ∈ pre, isTerminal f = false) ∧ (runBridge evs).ended = true := by
  rcases h with ⟨chunks, code, rfl⟩ | ⟨msg, rfl⟩ | ⟨msg, code, rfl⟩
  · rw [runBridge, List.foldl_append]
    have hnt := runBridge_data_noTerm chunks
    simp only [List.foldl_cons, List.foldl_nil]
    rcases onCloseEv_terminal hnt with ⟨pre, hf, hp, he⟩
    exact ⟨pre, Frame.doneEvent, hf, rfl, hp, he⟩
  · exact ⟨[], Frame.errEvent msg, rfl, rfl, by simp, rfl⟩
  · exact ⟨[], Frame.errEvent msg, rfl, rfl, by simp, rfl⟩

theorem chat_stream_single_terminal_witness :
    ValidTrace [BridgeEv.dataChunk "a\nb".toList, BridgeEv.closeEv 0] ∧
    (∃ pre t,
      (runBridge [BridgeEv.dataChunk "a\nb".toList, BridgeEv.closeEv 0]).frames
        = pre ++ [t] ∧ isTerminal t = true ∧ (∀ f ∈ pre, isTerminal f = false) ∧
      (runBridge [BridgeEv.dataChunk "a\nb".toList, BridgeEv.closeEv 0]).ended = true) :=
  ⟨Or.inl ⟨["a\nb".toList], 0, rfl⟩,
   chat_stream_single_terminal _ (Or.inl ⟨["a\nb".toList], 0, rfl⟩)⟩

/-- C2 counterexample: for the `firebase` connector a second login request
while one is in flight does not terminate the prior session — the stored
process (pid 7 here) is kept, no new session is started, and the caller is
told `already_running`. -/
theorem firebase_login_keeps_prior :
    firebaseLoginStart (some 7) 8 = (some 7, LoginResp.alreadyRunning) ∧
    (firebaseLoginStart (some 7) 8).1 ≠ some 8 := by decide

/-- C2 amended: for `gmail` (with a stored client secret) and `work_email`,
starting a login while one is in flight kills and replaces it, leaving
exactly one live session for the key, never queued and never rejected; for
`firebase`, a concurrent login request leaves the single existing session
running untouched and answers `already_running` (still at most one
session, never queued). -/
theorem login_session_replacement (tbl : SessTable) (accountId : Str) (pid : Nat) :
    (liveCount (gmailLoginStart tbl accountId true pid).1
        (sessKey gmailName accountId) = 1 ∧
      (∀ e ∈ (gmailLoginStart tbl accountId true pid).1,
        e.1 = sessKey gmailName accountId → e.2 = pid) ∧
      (gmailLoginStart tbl accountId true pid).2 = LoginResp.started) ∧
    (liveCount (workEmailLoginStart tbl accountId pid).1
        (sessKey workEmailName accountId) = 1 ∧
      (∀ e ∈ (workEmailLoginStart tbl accountId pid).1,
        e.1 = sessKey workEmailName accountId → e.2 = pid) ∧
      (workEmailLoginStart tbl accountId pid).2 = LoginResp.started) ∧
    firebaseLoginStart none pid = (some pid, LoginResp.started) ∧
    (∀ q, firebaseLoginStart (some q) pid = (some q, LoginResp.alreadyRunning)) := by
  have hmem : ∀ (cname : Str),
      ∀ e ∈ (sessKey cname accountId, pid) :: killKey tbl (sessKey cname accountId),
        e.1 = sessKey cname accountId → e.2 = pid := by
    intro cname e he hk
    rcases List.mem_cons.mp he with h1 | h1
    · rw [h1]
    · exact absurd hk (killKey_no_key tbl _ e h1)
  refine ⟨⟨?_, ?_, ?_⟩, ⟨?_, ?_, ?_⟩, rfl, fun q => rfl⟩
  · simpa [gmailLoginStart] using liveCount_replace tbl (sessKey gmailName accountId) pid
  · simpa [gmailLoginStart] using hmem gmailName
  · simp [gmailLoginStart]
  · simpa [workEmailLoginStart] using
      liveCount_replace tbl (sessKey workEmailName accountId) pid
  · simpa [workEmailLoginStart] using hmem workEmailName
  · simp [workEmailLoginStart]

/-- C4: removing the `default` account of any connector always fails with
the validation error and leaves the whole server state (registry document,
files, Config Store) untouched. -/
theorem remove_default_rejected (st : St) (connector : Str) :
    removeAccount st connector defaultId = (st, RemoveResp.errDefault) := by
  rw [removeAccount, if_pos rfl]

/-- C6: the connector status reported by `GET /api/connectors` is
`connected = true` whenever at least one registry account of the connector
is itself connected, regardless of the Config Store fields or legacy
checks. -/
theorem connector_status_or_semantics (c : ConnDef) (env : Str → Option Str)
    (fileEx : Str → Bool) (fbHasToken : Bool) (accts : List Account)
    (h : ∃ a ∈ accts, acctConnected c.name env fileEx a = true) :
    connectorConnected c env fileEx fbHasToken accts = true := by
  rw [connectorConnected]
  rcases h with ⟨a, ha, hconn⟩
  have hany : accts.any (fun a => acctConnected c.name env fileEx a) = true :=
    List.any_eq_true.mpr ⟨a, ha, hconn⟩
  rw [hany, Bool.or_true]

theorem connector_status_or_semantics_witness :
    (∃ a ∈ [Account.mk "work".toList "W".toList true none
        (some "GITHUB_TOKEN_WORK".toList) none],
      acctConnected "github".toList
        (fun k => if k = "GITHUB_TOKEN_WORK".toList then some "abc".toList else none)
        (fun _ => false) a = true) ∧
    connectorConnected ⟨"github".toList, [("GITHUB_TOKEN".toList, true)]⟩
      (fun k => if k = "GITHUB_TOKEN_WORK".toList then some "abc".toList else none)
      (fun _ => false) false
      [Account.mk "work".toList "W".toList true none
        (some "GITHUB_TOKEN_WORK".toList) none] = true :=
  ⟨by decide, connector_status_or_semantics _ _ _ _ _ (by decide)⟩

/-- C7: for a `work_email` login whose process exits non-zero, the close
handler reports failure when the ADC file was not modified within the last
60 seconds, and treats the login as a success — persisting the account's
credential file — when the ADC file is fresh (and readable). -/
theorem work_email_exit_tolerance (st : St) (accountId : Str) (code : Int)
    (nowMs : Nat) (adcMtime : Option Nat) (adcOk : Bool) (hcode : code ≠ 0) :
    (adcFresh nowMs adcMtime = false →
      (workEmailClose st accountId code nowMs adcMtime adcOk).success = false) ∧
    (adcFresh nowMs adcMtime = true → adcOk = true →
      (workEmailClose st accountId code nowMs adcMtime adcOk).success = true ∧
      getAccountCredentialFile workEmailName accountId ∈
        (workEmailClose st accountId code nowMs adcMtime adcOk).files) := by
  constructor
  · intro hf
    rw [workEmailClose, if_pos ⟨hcode, by simp [hf]⟩]
  · intro hf hok
    rw [workEmailClose]
    have hcond : ¬ (code ≠ 0 ∧ ¬ adcFresh nowMs adcMtime = true) := by simp [hf]
    rw [if_neg hcond, if_pos hok]
    exact ⟨rfl, insertFile_mem _ _⟩

theorem work_email_exit_tolerance_witness :
    (1 : Int) ≠ 0 ∧
    ((adcFresh 100000 (some 95000) = false →
      (workEmailClose ⟨[], [], none⟩ defaultId 1 100000 (some 95000) true).success
        = false) ∧
     (adcFresh 100000 (some 95000) = true → true = true →
      (workEmailClose ⟨[], [], none⟩ defaultId 1 100000 (some 95000) true).success
        = true ∧
      getAccountCredentialFile workEmailName defaultId ∈
        (workEmailClose ⟨[], [], none⟩ defaultId 1 100000 (some 95000) true).files)) :=
  ⟨by decide, work_email_exit_tolerance ⟨[], [], none⟩ defaultId 1 100000
    (some 95000) true (by decide)⟩

/-- C3: removing an existing non-default account deletes its secrets: a
truthy `credential_file` is gone from the filesystem afterwards, a truthy
`env_key` reads as absent from the Config Store, and with `env_keys` every
derived key reads as absent. -/
theorem remove_account_cleans_secrets (st : St) (connector id : Str)
    (acct : Account) (rest accts : List Account)
    (hid : id ≠ defaultId)
    (hreg : regLookup st.registry connector = some accts)
    (hext : extractFirst (fun a => a.id = id) accts = some (acct, rest)) :
    (removeAccount st connector id).2 = RemoveResp.removed ∧
    (∀ fch, truthy acct.credential_file = some fch →
      credPath fch ∉ (removeAccount st connector id).1.files) ∧
    (∀ k, truthy acct.env_keyF = some k →
      readEnvFile (removeAccount st connector id).1.envFile k = none) ∧
    (truthy acct.env_keyF = none → ∀ m, acct.env_keysF = some m →
      ∀ kv ∈ m, readEnvFile (removeAccount st connector id).1.envFile kv.2 = none) := by
  have hR : removeAccount st connector id =
      (⟨regSet st.registry connector rest,
        (match truthy acct.credential_file with
         | some f => deleteFile st.files (credPath f)
         | none => st.files),
        (match truthy acct.env_keyF with
         | some k => some (writeEnv st.envFile [(k, [])])
         | none =>
           match acct.env_keysF with
           | some m => some (writeEnv st.envFile (m.map (fun kv => (kv.2, ([] : Str)))))
           | none => st.envFile)⟩, .removed) := by
    rw [removeAccount, if_neg hid, hreg]
    simp [hext]
  refine ⟨by rw [hR], ?_, ?_, ?_⟩
  · intro fch hf
    rw [hR]
    simp only [hf]
    exact deleteFile_not_mem st.files (credPath fch)
  · intro k hk
    rw [hR]
    simp only [hk]
    show readEnv (writeEnv st.envFile [(k, [])]) k = none
    apply readEnv_write_clear
    · intro kv hkv
      simp only [List.mem_singleton] at hkv
      simp [hkv]
    · simp [updLookup_single_self]
  · intro hk m hm kv hkv
    rw [hR]
    simp only [hk, hm]
    show readEnv (writeEnv st.envFile (m.map (fun kv => (kv.2, ([] : Str))))) kv.2 = none
    apply readEnv_write_clear
    · intro kv2 hkv2
      rcases List.mem_map.mp hkv2 with ⟨kv3, _, rfl⟩
      rfl
    · exact updLookup_isSome_of_mem (List.mem_map_of_mem _ hkv)

/-- A sample account with a derived env key, used by concrete witnesses. -/
def demoAcct : Account :=
  ⟨"work".toList, "W".toList, true, none, some "GITHUB_TOKEN_WORK".toList, none⟩

/-- A sample server state holding `demoAcct` for the github connector and
its secret in the Config Store, used by concrete witnesses. -/
def demoSt : St :=
  ⟨[("github".toList, [demoAcct])], [], some "GITHUB_TOKEN_WORK=abc".toList⟩

theorem remove_account_cleans_secrets_witness :
    ("work".toList ≠ defaultId ∧
     regLookup demoSt.registry "github".toList = some [demoAcct] ∧
     extractFirst (fun a => a.id = "work".toList) [demoAcct] = some (demoAcct, [])) ∧
    ((removeAccount demoSt "github".toList "work".toList).2 = RemoveResp.removed ∧
     (∀ fch, truthy demoAcct.credential_file = some fch →
       credPath fch ∉ (removeAccount demoSt "github".toList "work".toList).1.files) ∧
     (∀ k, truthy demoAcct.env_keyF = some k →
       readEnvFile (removeAccount demoSt "github".toList "work".toList).1.envFile k
         = none) ∧
     (truthy demoAcct.env_keyF = none → ∀ m, demoAcct.env_keysF = some m →
       ∀ kv ∈ m,
         readEnvFile (removeAccount demoSt "github".toList "work".toList).1.envFile kv.2
           = none)) :=
  ⟨⟨by decide, by decide, by decide⟩,
   remove_account_cleans_secrets demoSt "github".toList "work".toList demoAcct []
     [demoAcct] (by decide) (by decide) (by decide)⟩

/-- C5 counterexample: the value `"#x"` is printable, does not start with a
quote and contains no `" #"`, yet writing it and reading it back yields
absence — `readEnv` treats the stored value as a pure comment. -/
theorem config_roundtrip_cex :
    readEnv (writeEnv none [("A".toList, "#x".toList)]) "A".toList = none ∧
    readEnv (writeEnv none [("A".toList, "#x".toList)]) "A".toList ≠
      some "#x".toList := by decide

/-- C5 amended: the Config Store round-trips `write({K:V}); read()[K] == V`
for every starting file provided the key is self-trimmed, free of `'='`,
newlines and a leading `'#'`, and the value is non-empty, self-trimmed,
newline-free, does not start with a quote or `'#'` and contains no `" #"`
sequence. -/
theorem config_write_read_roundtrip (f : Option Str) (K V : Str)
    (hK1 : trim K = K) (hK2 : '=' ∉ K) (hK3 : strStarts K '#' = false)
    (hK4 : '\n' ∉ K) (hV1 : trim V = V) (hV2 : V ≠ []) (hV3 : '\n' ∉ V)
    (hV4 : strStarts V '"' = false) (hV5 : strStarts V '\'' = false)
    (hV6 : cutSeq V = none) (hV7 : strStarts V '#' = false) :
    readEnv (writeEnv f [(K, V)]) K = some V :=
  readEnv_write_roundtrip f K V hK1 hK2 hK3 hK4 hV1 hV2 hV3 hV4 hV5 hV6 hV7

theorem config_write_read_roundtrip_witness :
    (trim "A".toList = "A".toList ∧ '=' ∉ "A".toList ∧
     strStarts "A".toList '#' = false ∧ '\n' ∉ "A".toList ∧
     trim "xyz".toList = "xyz".toList ∧ "xyz".toList ≠ [] ∧ '\n' ∉ "xyz".toList ∧
     strStarts "xyz".toList '"' = false ∧ strStarts "xyz".toList '\'' = false ∧
     cutSeq "xyz".toList = none ∧ strStarts "xyz".toList '#' = false) ∧
    readEnv (writeEnv (some "B=1".toList) [("A".toList, "xyz".toList)]) "A".toList
      = some "xyz".toList :=
  ⟨by decide,
   config_write_read_roundtrip (some "B=1".toList) "A".toList "xyz".toList
     (by decide) (by decide) (by decide) (by decide) (by decide) (by decide)
     (by decide) (by decide) (by decide) (by decide) (by decide)⟩

/-- C9 counterexample: an update value containing a newline breaks
idempotence — the second write re-appends the spilled tail line. -/
theorem config_write_idem_cex :
    writeEnv (some (writeEnv none [("A".toList, "x\ny".toList)]))
        [("A".toList, "x\ny".toList)] ≠
      writeEnv none [("A".toList, "x\ny".toList)] := by decide

/-- C9 amended: for updates whose keys are self-trimmed, free of `'='`,
newlines and a leading `'#'`, whose values are newline-free, and whose
keys are pairwise distinct, writing twice equals writing once, and a file
without duplicate key lines never gains one. -/
theorem config_write_idempotent (f : Option Str) (u : EnvUpd)
    (hkeys : ∀ kv ∈ u, GoodKey kv.1) (hvals : ∀ kv ∈ u, '\n' ∉ kv.2)
    (hnd : (u.map Prod.fst).Nodup) :
    writeEnv (some (writeEnv f u)) u = writeEnv f u ∧
    ((lineKeys (fileLines f)).Nodup →
      (lineKeys (fileLines (some (writeEnv f u)))).Nodup) :=
  ⟨writeEnv_idem f u hkeys hvals hnd,
   fun h0 => writeEnv_nodup_keys f u hkeys hvals hnd h0⟩

theorem config_write_idempotent_witness :
    ((∀ kv ∈ [("B".toList, "3".toList), ("C".toList, "4".toList)], GoodKey kv.1) ∧
     (∀ kv ∈ [("B".toList, "3".toList), ("C".toList, "4".toList)], '\n' ∉ kv.2) ∧
     (([("B".toList, "3".toList), ("C".toList, "4".toList)].map Prod.fst)).Nodup) ∧
    (writeEnv
        (some (writeEnv (some "A=1\nB=2".toList)
          [("B".toList, "3".toList), ("C".toList, "4".toList)]))
        [("B".toList, "3".toList), ("C".toList, "4".toList)] =
      writeEnv (some "A=1\nB=2".toList)
        [("B".toList, "3".toList), ("C".toList, "4".toList)] ∧
     ((lineKeys (fileLines (some "A=1\nB=2".toList))).Nodup →
       (lineKeys (fileLines (some (writeEnv (some "A=1\nB=2".toList)
         [("B".toList, "3".toList), ("C".toList, "4".toList)])))).Nodup)) :=
  ⟨⟨by decide, by decide, by decide⟩,
   config_write_idempotent (some "A=1\nB=2".toList)
     [("B".toList, "3".toList), ("C".toList, "4".toList)]
     (by decide) (by decide) (by decide)⟩

theorem addAccountEntry_le_one (catalog : List ConnDef) (connector id label : Str) :
    locCount (addAccountEntry catalog connector id label) ≤ 1 := by
  rw [addAccountEntry]
  by_cases hem : connector = gmailName ∨ connector = workEmailName
  · rw [if_pos hem]
    simp [locCount]
  · rw [if_neg hem]
    cases hfind : catalog.find? (fun c => c.name = connector) with
    | none => simp [locCount]
    | some cd =>
      cases hvs : cd.envVars with
      | nil => simp [locCount, hvs]
      | cons v tail =>
        cases tail with
        | nil => simp [locCount, hvs]
        | cons v2 vs => simp [locCount, hvs]

/-- C8 counterexample: `add` for a connector that declares no credential
fields (in this repository `supabase` ships no instructions table, so its
discovered field list is empty) succeeds and stores an account carrying no
credential locator at all. -/
theorem add_account_no_locator_cex :
    (addAccount [⟨"supabase".toList, []⟩] ⟨[], [], none⟩ "supabase".toList
        "work".toList "Work".toList []).2 =
      AddResp.okAdd ⟨"work".toList, "Work".toList, true, none, none, none⟩ ∧
    locCount ⟨"work".toList, "Work".toList, true, none, none, none⟩ = 0 := by decide

/-- C8 amended: every account placed in the registry carries at most one
credential locator, and exactly one on every creation path except `add`
for a non-e-mail connector whose catalog entry is absent or declares no
fields: e-mail or field-declaring `add`, the seeding migration, and the
login upserts all set exactly one. -/
theorem account_locator_exactly_one (catalog : List ConnDef)
    (connector id label : Str) (gt wt : Bool) (ge we : Option Str)
    (env : Str → Option Str) (accountId : Str) (email : Option Str)
    (hcond : connector = gmailName ∨ connector = workEmailName ∨
      (∃ cd, catalog.find? (fun c => c.name = connector) = some cd ∧
        cd.envVars ≠ [])) :
    locCount (addAccountEntry catalog connector id label) = 1 ∧
    (∀ cat2 c2 i2 l2, locCount (addAccountEntry cat2 c2 i2 l2) ≤ 1) ∧
    (∀ p ∈ seedRegistry gt wt ge we env, ∀ a ∈ p.2, locCount a = 1) ∧
    locCount (gmailLoginNewAccount accountId email) = 1 ∧
    locCount (workEmailNewAccount accountId) = 1 := by
  refine ⟨?_, fun cat2 c2 i2 l2 => addAccountEntry_le_one cat2 c2 i2 l2,
    seedRegistry_locators gt wt ge we env, rfl, rfl⟩
  by_cases hem : connector = gmailName ∨ connector = workEmailName
  · rw [addAccountEntry, if_pos hem]
    simp [locCount]
  · rcases hcond with h | h | h
    · exact absurd (Or.inl h) hem
    · exact absurd (Or.inr h) hem
    · rcases h with ⟨cd, hfind, hne⟩
      rw [addAccountEntry, if_neg hem, hfind]
      cases hvs : cd.envVars with
      | nil => exact absurd hvs hne
      | cons v tail =>
        cases tail with
        | nil => simp [locCount, hvs]
        | cons v2 vs => simp [locCount, hvs]

theorem account_locator_exactly_one_witness :
    ("github".toList = gmailName ∨ "github".toList = workEmailName ∨
      (∃ cd, [ConnDef.mk "github".toList [("GITHUB_TOKEN".toList, true)]].find?
          (fun c => c.name = "github".toList) = some cd ∧ cd.envVars ≠ [])) ∧
    (locCount (addAccountEntry [ConnDef.mk "github".toList [("GITHUB_TOKEN".toList, true)]]
        "github".toList "work".toList "W".toList) = 1 ∧
     (∀ cat2 c2 i2 l2, locCount (addAccountEntry cat2 c2 i2 l2) ≤ 1) ∧
     (∀ p ∈ seedRegistry false false none none (fun _ => none),
        ∀ a ∈ p.2, locCount a = 1) ∧
     locCount (gmailLoginNewAccount defaultId none) = 1 ∧
     locCount (workEmailNewAccount defaultId) = 1) :=
  ⟨Or.inr (Or.inr ⟨⟨"github".toList, [("GITHUB_TOKEN".toList, true)]⟩,
     by decide, by decide⟩),
   account_locator_exactly_one [⟨"github".toList, [("GITHUB_TOKEN".toList, true)]⟩]
     "github".toList "work".toList "W".toList false false none none (fun _ => none)
     defaultId none
     (Or.inr (Or.inr ⟨⟨"github".toList, [("GITHUB_TOKEN".toList, true)]⟩,
       by decide, by decide⟩))⟩

/-- C10: per-account disconnect succeeds for an existing account, leaves
the registry document untouched (the entry is still found with the same
fields), and only ever deletes one credential file or clears derived
Config Store keys. -/
theorem disconnect_preserves_registry (st : St) (connector id : Str)
    (acct : Account)
    (hfind : ((regLookup st.registry connector).getD []).find?
      (fun a => a.id = id) = some acct) :
    (disconnectAccount st connector id).2 = DiscResp.ok ∧
    (disconnectAccount st connector id).1.registry = st.registry ∧
    ((regLookup (disconnectAccount st connector id).1.registry connector).getD
        []).find? (fun a => a.id = id) = some acct ∧
    ((∃ p, (disconnectAccount st connector id).1.files = deleteFile st.files p ∧
        (disconnectAccount st connector id).1.envFile = st.envFile) ∨
     ((disconnectAccount st connector id).1.files = st.files ∧
       ((disconnectAccount st connector id).1.envFile = st.envFile ∨
        ∃ u, (∀ kv ∈ u, kv.2 = ([] : Str)) ∧
          (disconnectAccount st connector id).1.envFile
            = some (writeEnv st.envFile u)))) := by
  cases htc : truthy acct.credential_file with
  | some fch =>
    have hD : disconnectAccount st connector id =
        (⟨st.registry, deleteFile st.files (credPath fch), st.envFile⟩, .ok) := by
      simp only [disconnectAccount, hfind, htc]
    rw [hD]
    exact ⟨rfl, rfl, hfind, Or.inl ⟨credPath fch, rfl, rfl⟩⟩
  | none =>
    by_cases hconn : connector = gmailName ∨ connector = workEmailName
    · have hD : disconnectAccount st connector id =
          (⟨st.registry, deleteFile st.files (getAccountCredentialFile connector id),
            st.envFile⟩, .ok) := by
        simp only [disconnectAccount, hfind, htc, if_pos hconn]
      rw [hD]
      exact ⟨rfl, rfl, hfind,
        Or.inl ⟨getAccountCredentialFile connector id, rfl, rfl⟩⟩
    · cases hek : truthy acct.env_keyF with
      | some k =>
        have hD : disconnectAccount st connector id =
            (⟨st.registry, st.files, some (writeEnv st.envFile [(k, [])])⟩, .ok) := by
          simp only [disconnectAccount, hfind, htc, if_neg hconn, hek]
        rw [hD]
        refine ⟨rfl, rfl, hfind, Or.inr ⟨rfl, Or.inr ⟨[(k, [])], ?_, rfl⟩⟩⟩
        intro kv hkv
        simp only [List.mem_singleton] at hkv
        simp [hkv]
      | none =>
        cases heks : acct.env_keysF with
        | some m =>
          have hD : disconnectAccount st connector id =
              (⟨st.registry, st.files,
                some (writeEnv st.envFile (m.map (fun kv => (kv.2, ([] : Str)))))⟩,
               .ok) := by
            simp only [disconnectAccount, hfind, htc, if_neg hconn, hek, heks]
          rw [hD]
          refine ⟨rfl, rfl, hfind,
            Or.inr ⟨rfl, Or.inr ⟨m.map (fun kv => (kv.2, ([] : Str))), ?_, rfl⟩⟩⟩
          intro kv hkv
          rcases List.mem_map.mp hkv with ⟨kv2, _, rfl⟩
          rfl
        | none =>
          have hD : disconnectAccount st connector id = (st, .ok) := by
            simp only [disconnectAccount, hfind, htc, if_neg hconn, hek, heks]
          rw [hD]
          exact ⟨rfl, rfl, hfind, Or.inr ⟨rfl, Or.inl rfl⟩⟩

theorem disconnect_preserves_registry_witness :
    ((regLookup demoSt.registry "github".toList).getD []).find?
      (fun a => a.id = "work".toList) = some demoAcct ∧
    ((disconnectAccount demoSt "github".toList "work".toList).2 = DiscResp.ok ∧
     (disconnectAccount demoSt "github".toList "work".toList).1.registry
       = demoSt.registry ∧
     ((regLookup (disconnectAccount demoSt "github".toList "work".toList).1.registry
         "github".toList).getD []).find? (fun a => a.id = "work".toList)
       = some demoAcct ∧
     ((∃ p, (disconnectAccount demoSt "github".toList "work".toList).1.files
          = deleteFile demoSt.files p ∧
        (disconnectAccount demoSt "github".toList "work".toList).1.envFile
          = demoSt.envFile) ∨
      ((disconnectAccount demoSt "github".toList "work".toList).1.files
          = demoSt.files ∧
        ((disconnectAccount demoSt "github".toList "work".toList).1.envFile
            = demoSt.envFile ∨
         ∃ u, (∀ kv ∈ u, kv.2 = ([] : Str)) ∧
           (disconnectAccount demoSt "github".toList "work".toList).1.envFile
             = some (writeEnv demoSt.envFile u))))) :=
  ⟨by decide,
   disconnect_preserves_registry demoSt "github".toList "work".toList demoAcct
     (by decide)⟩

end ClawFounder
